import Mathlib

/-!
Verification of the central blockchain implementation (`central_blockchain.py`).

The embedding models Python strings as `List Char` (Python strings are
sequences of Unicode code points), Python `int` as `Int`/`Nat`, and the
JSON-serializable payloads accepted by `json.dumps` as a closed inductive
type.  Timestamps (`time()` returns a float in the source) are modelled as
abstract integer clock readings passed explicitly; float formatting is
orthogonal to every property below.  File persistence is I/O plumbing and is
modelled by passing the loaded chain (possibly empty) to the constructor.

`hashlib.sha256` is the SHA-256 function of FIPS 180-4; it is implemented
here concretely so that digests of concrete blocks can be evaluated inside
proofs.
-/

/-- Python strings are sequences of Unicode code points; modelled as `List Char`. -/
abbrev Str := List Char

/-- Convert a Lean string literal to the model string type. -/
def strOf (s : String) : Str := s.data

/-! ## SHA-256 (FIPS 180-4) — the function computed by `hashlib.sha256(..).hexdigest()`. -/

/-- 2^32, the modulus for 32-bit word arithmetic. -/
def M32 : Nat := 4294967296

/-- Right rotation of a 32-bit word, expressed arithmetically. -/
def rotr (n x : Nat) : Nat := (x / 2 ^ n + x % 2 ^ n * 2 ^ (32 - n)) % M32

/-- Logical right shift. -/
def shr (n x : Nat) : Nat := x / 2 ^ n

def bigS0 (x : Nat) : Nat := rotr 2 x ^^^ rotr 13 x ^^^ rotr 22 x
def bigS1 (x : Nat) : Nat := rotr 6 x ^^^ rotr 11 x ^^^ rotr 25 x
def smallS0 (x : Nat) : Nat := rotr 7 x ^^^ rotr 18 x ^^^ shr 3 x
def smallS1 (x : Nat) : Nat := rotr 17 x ^^^ rotr 19 x ^^^ shr 10 x

/-- `Ch(x,y,z)` of FIPS 180-4 (complement taken inside 32 bits). -/
def chNat (x y z : Nat) : Nat := (x &&& y) ^^^ ((4294967295 ^^^ x) &&& z)

/-- `Maj(x,y,z)` of FIPS 180-4. -/
def majNat (x y z : Nat) : Nat := (x &&& y) ^^^ (x &&& z) ^^^ (y &&& z)

/-- The 64 round constants of SHA-256. -/
def K64 : List Nat :=
  [1116352408, 1899447441, 3049323471, 3921009573, 961987163, 1508970993,
   2453635748, 2870763221, 3624381080, 310598401, 607225278, 1426881987,
   1925078388, 2162078206, 2614888103, 3248222580, 3835390401, 4022224774,
   264347078, 604807628, 770255983, 1249150122, 1555081692, 1996064986,
   2554220882, 2821834349, 2952996808, 3210313671, 3336571891, 3584528711,
   113926993, 338241895, 666307205, 773529912, 1294757372, 1396182291,
   1695183700, 1986661051, 2177026350, 2456956037, 2730485921, 2820302411,
   3259730800, 3345764771, 3516065817, 3600352804, 4094571909, 275423344,
   430227734, 506948616, 659060556, 883997877, 958139571, 1322822218,
   1537002063, 1747873779, 1955562222, 2024104815, 2227730452, 2361852424,
   2428436474, 2756734187, 3204031479, 3329325298]

/-- The eight 32-bit working variables of the compression function. -/
structure Hs where
  h0 : Nat
  h1 : Nat
  h2 : Nat
  h3 : Nat
  h4 : Nat
  h5 : Nat
  h6 : Nat
  h7 : Nat

/-- Initial hash value of SHA-256. -/
def initHs : Hs :=
  ⟨1779033703, 3144134277, 1013904242, 2773480762, 1359893119, 2600822924, 528734635, 1541459225⟩

/-- One round of the SHA-256 compression function; `kw` is the pair (round constant, word). -/
def compress1 (st : Hs) (kw : Nat × Nat) : Hs :=
  let t1 := (st.h7 + bigS1 st.h4 + chNat st.h4 st.h5 st.h6 + kw.1 + kw.2) % M32
  let t2 := (bigS0 st.h0 + majNat st.h0 st.h1 st.h2) % M32
  ⟨(t1 + t2) % M32, st.h0, st.h1, st.h2, (st.h3 + t1) % M32, st.h4, st.h5, st.h6⟩

/-- Message-schedule extension; `acc` holds the schedule so far in reverse. -/
def extendW : Nat → List Nat → List Nat
  | 0, acc => acc
  | n + 1, acc =>
    let w := (smallS1 (acc.getD 1 0) + acc.getD 6 0 + smallS0 (acc.getD 14 0) + acc.getD 15 0) % M32
    extendW n (w :: acc)

/-- Process one 512-bit chunk (given as 16 words). -/
def processChunk (st : Hs) (ws16 : List Nat) : Hs :=
  let ws := (extendW 48 ws16.reverse).reverse
  let f := (K64.zip ws).foldl compress1 st
  ⟨(st.h0 + f.h0) % M32, (st.h1 + f.h1) % M32, (st.h2 + f.h2) % M32, (st.h3 + f.h3) % M32,
   (st.h4 + f.h4) % M32, (st.h5 + f.h5) % M32, (st.h6 + f.h6) % M32, (st.h7 + f.h7) % M32⟩

/-- Group a byte list into big-endian 32-bit words (input length a multiple of 4). -/
def words4 : List Nat → List Nat
  | b0 :: b1 :: b2 :: b3 :: rest =>
      (b0 * 16777216 + b1 * 65536 + b2 * 256 + b3) :: words4 rest
  | _ => []

/-- Group a word list into chunks of 16 (input length a multiple of 16). -/
def chunks16 : List Nat → List (List Nat)
  | w0 :: w1 :: w2 :: w3 :: w4 :: w5 :: w6 :: w7 ::
    w8 :: w9 :: w10 :: w11 :: w12 :: w13 :: w14 :: w15 :: rest =>
      [w0, w1, w2, w3, w4, w5, w6, w7, w8, w9, w10, w11, w12, w13, w14, w15] :: chunks16 rest
  | _ => []

/-- The 8-byte big-endian encoding of the bit length. -/
def lenBytes (n : Nat) : List Nat :=
  [n / 72057594037927936 % 256, n / 281474976710656 % 256, n / 1099511627776 % 256,
   n / 4294967296 % 256, n / 16777216 % 256, n / 65536 % 256, n / 256 % 256, n % 256]

/-- SHA-256 message padding. -/
def padBytes (msg : List Nat) : List Nat :=
  let l := msg.length
  let k := (119 - l % 64) % 64
  msg ++ 128 :: List.replicate k 0 ++ lenBytes (8 * l)

/-- The lowercase hexadecimal alphabet. -/
def hexTable : Str := strOf "0123456789abcdef"

/-- Lowercase hex digit of `n % 16`. -/
def hexDigit (n : Nat) : Char := hexTable.getD (n % 16) '0'

/-- 8-character lowercase hex rendering of a 32-bit word. -/
def wordHex (w : Nat) : Str :=
  [hexDigit (w / 268435456), hexDigit (w / 16777216), hexDigit (w / 1048576),
   hexDigit (w / 65536), hexDigit (w / 4096), hexDigit (w / 256), hexDigit (w / 16), hexDigit w]

/-- Hex rendering of the final state: the 64-character digest. -/
def renderHash (st : Hs) : Str :=
  wordHex st.h0 ++ wordHex st.h1 ++ wordHex st.h2 ++ wordHex st.h3 ++
  wordHex st.h4 ++ wordHex st.h5 ++ wordHex st.h6 ++ wordHex st.h7

/-- SHA-256 of a byte string, as a lowercase hex digest (`hexdigest()`). -/
def sha256hex (msg : List Nat) : Str :=
  renderHash ((chunks16 (words4 (padBytes msg))).foldl processChunk initHs)

/-- UTF-8 encoding of one code point. -/
def utf8Char (c : Char) : List Nat :=
  let v := c.toNat
  if v < 128 then [v]
  else if v < 2048 then [192 + v / 64, 128 + v % 64]
  else if v < 65536 then [224 + v / 4096, 128 + v / 64 % 64, 128 + v % 64]
  else [240 + v / 262144, 128 + v / 4096 % 64, 128 + v / 64 % 64, 128 + v % 64]

/-- UTF-8 encoding of a string (`str.encode("utf-8")`). -/
def utf8Bytes : Str → List Nat
  | [] => []
  | c :: r => utf8Char c ++ utf8Bytes r

/-! ## JSON values

`json.dumps` accepts (for this program's payloads) strings, numbers, booleans,
ordered sequences and string-keyed mappings.  Numbers are modelled as `Int`
(the program's numeric fields are Python `int`s; float formatting is outside
the model).  The nesting is expressed as a mutual inductive so that every
function below is plain structural recursion. -/

mutual
inductive Json where
  | str (s : Str)
  | num (n : Int)
  | bool (b : Bool)
  | arr (xs : JsonList)
  | obj (kvs : JsonKVs)
inductive JsonList where
  | nil
  | cons (hd : Json) (tl : JsonList)
inductive JsonKVs where
  | nil
  | cons (k : Str) (v : Json) (tl : JsonKVs)
end

/-- The character for a decimal digit. -/
def digitCh (d : Nat) : Char := Char.ofNat (48 + d)

/-- Decimal digits of `n`, most significant first (empty for `n = 0`); fuel-driven. -/
def natDigitsAux : Nat → Nat → Str
  | 0, _ => []
  | f + 1, n => if n = 0 then [] else natDigitsAux f (n / 10) ++ [digitCh (n % 10)]

/-- Decimal representation of a natural number (`repr` of a Python non-negative int). -/
def natRepr (n : Nat) : Str := if n = 0 then ['0'] else natDigitsAux (n + 1) n

/-- Decimal representation of an integer, as `json.dumps` prints Python ints. -/
def intRepr : Int → Str
  | Int.ofNat m => natRepr m
  | Int.negSucc m => '-' :: natRepr (m + 1)

/-- Four lowercase hex digits, `"%04x" % n` for `n < 0x10000`. -/
def hex4 (n : Nat) : Str :=
  [hexDigit (n / 4096), hexDigit (n / 256), hexDigit (n / 16), hexDigit n]

/-- Escaping of one character exactly as `json.dumps` (default `ensure_ascii=True`)
does: the two-character escapes of `ESCAPE_DCT`, `\uXXXX` for other characters
outside `0x20..0x7e`, surrogate pairs beyond the BMP, all else verbatim. -/
def escChar (c : Char) : Str :=
  if c = '"' then ['\\', '"']
  else if c = '\\' then ['\\', '\\']
  else if c = '\x08' then ['\\', 'b']
  else if c = '\x0c' then ['\\', 'f']
  else if c = '\n' then ['\\', 'n']
  else if c = '\r' then ['\\', 'r']
  else if c = '\t' then ['\\', 't']
  else if c.toNat < 32 ∨ 126 < c.toNat then
    if c.toNat < 65536 then '\\' :: 'u' :: hex4 c.toNat
    else
      let n := c.toNat - 65536
      ('\\' :: 'u' :: hex4 (55296 + n / 1024)) ++ ('\\' :: 'u' :: hex4 (56320 + n % 1024))
  else [c]

/-- Escaping of a whole string body. -/
def escStr : Str → Str
  | [] => []
  | c :: r => escChar c ++ escStr r

/-- Comma-separated concatenation, `",".join(...)`. -/
def joinComma : List Str → Str
  | [] => []
  | [s] => s
  | s :: rest => s ++ ',' :: joinComma rest

/-- Lexicographic strict order on strings by code point, Python's `<` on `str`. -/
def strLtB : Str → Str → Bool
  | [], [] => false
  | [], _ :: _ => true
  | _ :: _, [] => false
  | a :: as, b :: bs =>
    if a.toNat < b.toNat then true
    else if b.toNat < a.toNat then false
    else strLtB as bs

def strLeB (a b : Str) : Bool := !(strLtB b a)

/-- Insertion into a key-sorted list of (key, rendered member) pairs. -/
def insertP (p : Str × Str) : List (Str × Str) → List (Str × Str)
  | [] => [p]
  | q :: rest => if strLeB p.1 q.1 then p :: q :: rest else q :: insertP p rest

/-- Sorting of rendered members by key: the `sort_keys=True` of `json.dumps`. -/
def sortPairs : List (Str × Str) → List (Str × Str)
  | [] => []
  | p :: rest => insertP p (sortPairs rest)

mutual
/-- Compact serialization of a JSON value: exactly `json.dumps(...,
separators=(",", ":"), sort_keys=True)`. -/
def encV : Json → Str
  | .str s => '"' :: escStr s ++ ['"']
  | .num n => intRepr n
  | .bool true => strOf "true"
  | .bool false => strOf "false"
  | .arr xs => '[' :: joinComma (encL xs) ++ [']']
  | .obj kvs => '\x7b' :: joinComma ((sortPairs (encKV kvs)).map (fun p => p.2)) ++ ['\x7d']
/-- Serializations of the elements of an array. -/
def encL : JsonList → List Str
  | .nil => []
  | .cons v tl => encV v :: encL tl
/-- (key, serialized `"key":value` member) pairs of an object. -/
def encKV : JsonKVs → List (Str × Str)
  | .nil => []
  | .cons k v tl => (k, ('"' :: escStr k ++ ['"']) ++ ':' :: encV v) :: encKV tl
end

/-! ## Block -/

/-- `Block` of the source: a dataclass with six fields.  `timestamp` is an
abstract clock reading (see the header note). -/
structure Block where
  index : Int
  timestamp : Int
  data : Json
  previous_hash : Str
  nonce : Int
  hash : Str

/-- The dict literal built inside `compute_hash`, in source order; `sort_keys`
is applied by the serializer. -/
def blockKVs (b : Block) : JsonKVs :=
  .cons (strOf "index") (.num b.index)
    (.cons (strOf "timestamp") (.num b.timestamp)
      (.cons (strOf "data") b.data
        (.cons (strOf "previous_hash") (.str b.previous_hash)
          (.cons (strOf "nonce") (.num b.nonce) .nil))))

/-- `block_string` of `Block.compute_hash`: the canonical encoding. -/
def blockString (b : Block) : Str := encV (.obj (blockKVs b))

/-- `Block.compute_hash`: SHA-256 hex digest of the canonical encoding
(UTF-8 bytes); the `hash` field is not an input. -/
def Block.compute_hash (b : Block) : Str := sha256hex (utf8Bytes (blockString b))

/-! ## CentralBlockchain -/

/-- `CentralBlockchain`: difficulty, the precomputed prefix `"0" * difficulty`
(field `self.prefix`, named `pfx` here), and the chain.  The persistence path
is I/O plumbing and is not part of the model. -/
structure CentralBlockchain where
  difficulty : Nat
  pfx : Str
  chain : List Block

/-- A default block (used only as the fallback of `List.getD`). -/
def dBlock : Block := ⟨0, 0, .str [], [], 0, []⟩

/-- `_create_genesis_block`: index 0, sentinel data, 64 zero characters as
`previous_hash`, sealed by direct digest computation (not mined). -/
def genesisBlock (ts : Int) : Block :=
  let g : Block := ⟨0, ts, .str (strOf "Genesis Block"), List.replicate 64 '0', 0, []⟩
  { g with hash := g.compute_hash }

/-- `__init__`: the chain is what `_load` produced (`loaded`, possibly empty —
a missing, malformed or absent file yields `[]`); if it is empty, a fresh
genesis block is appended. -/
def initLoad (difficulty : Nat) (loaded : List Block) (ts : Int) : CentralBlockchain :=
  if loaded.isEmpty then ⟨difficulty, List.replicate difficulty '0', [genesisBlock ts]⟩
  else ⟨difficulty, List.replicate difficulty '0', loaded⟩

/-- Construction with no persisted state. -/
def initFresh (difficulty : Nat) (ts : Int) : CentralBlockchain := initLoad difficulty [] ts

/-- `mineBlock`'s `while True` loop: try the current nonce; on success seal and
return, otherwise increment `nonce` and retry.  The unbounded Python loop is
modelled with fuel: `none` means the loop did not finish within `fuel`
iterations. -/
def mineAux (pfx : Str) (b : Block) : Nat → Option Block
  | 0 => none
  | fuel + 1 =>
    if pfx.isPrefixOf b.compute_hash then some { b with hash := b.compute_hash }
    else mineAux pfx { b with nonce := b.nonce + 1 } fuel

/-- `CentralBlockchain.mineBlock`. -/
def CentralBlockchain.mineBlock (bc : CentralBlockchain) (b : Block) (fuel : Nat) : Option Block :=
  mineAux bc.pfx b fuel

/-- `setBlock`: build the candidate chained to the tip (`chain[-1]`), mine it,
append it, return it.  `ts` is the `time()` reading at the call. -/
def CentralBlockchain.setBlock (bc : CentralBlockchain) (ts : Int) (d : Json) (fuel : Nat) :
    Option (CentralBlockchain × Block) :=
  match bc.chain.getLast? with
  | none => none
  | some prev =>
    match bc.mineBlock ⟨prev.index + 1, ts, d, prev.hash, 0, []⟩ fuel with
    | none => none
    | some mined => some ({ bc with chain := bc.chain ++ [mined] }, mined)

/-- `getBlock`: the block at `index` when `0 <= index < len(chain)`, else `None`. -/
def CentralBlockchain.getBlock (bc : CentralBlockchain) (index : Int) : Option Block :=
  if 0 ≤ index ∧ index < (bc.chain.length : Int) then bc.chain.get? index.toNat else none

/-- `blocksExplorer`: the whole chain (serialization of each block is the
persistence collaborator's concern). -/
def CentralBlockchain.blocksExplorer (bc : CentralBlockchain) : List Block := bc.chain

/-- The loop of `is_valid` from index 1 on, carrying the previous block. -/
def validFrom (pfx : Str) : Block → List Block → Bool
  | _, [] => true
  | prev, curr :: rest =>
    curr.previous_hash == prev.hash && curr.compute_hash == curr.hash &&
    pfx.isPrefixOf curr.hash && validFrom pfx curr rest

/-- `is_valid`: empty chain invalid; genesis digest recheck; linkage, digest
recheck and difficulty prefix for every later block. -/
def CentralBlockchain.is_valid (bc : CentralBlockchain) : Bool :=
  match bc.chain with
  | [] => false
  | g :: rest => (g.hash == g.compute_hash) && validFrom bc.pfx g rest

/-- `getBlock` in method-call form: result plus post-state (the body only reads `self`). -/
def CentralBlockchain.getBlockM (bc : CentralBlockchain) (index : Int) :
    Option Block × CentralBlockchain := (bc.getBlock index, bc)

/-- `blocksExplorer` in method-call form. -/
def CentralBlockchain.blocksExplorerM (bc : CentralBlockchain) :
    List Block × CentralBlockchain := (bc.blocksExplorer, bc)

/-- `is_valid` in method-call form. -/
def CentralBlockchain.is_validM (bc : CentralBlockchain) : Bool × CentralBlockchain :=
  (bc.is_valid, bc)

/-- `N` sequential `setBlock` calls with the given clock readings and payloads. -/
def appendAll (fuel : Nat) : CentralBlockchain → List (Int × Json) → Option CentralBlockchain
  | bc, [] => some bc
  | bc, (ts, d) :: rest =>
    match bc.setBlock ts d fuel with
    | none => none
    | some (bc', _) => appendAll fuel bc' rest

/-- Number of leading `'0'` characters. -/
def countZeros : Str → Nat
  | [] => 0
  | c :: r => if c = '0' then countZeros r + 1 else 0

/-! ## Auxiliary predicates and derived notions -/

/-- The block with its `nonce` replaced (the state of the mining loop). -/
def withNonce (b : Block) (n : Int) : Block := { b with nonce := n }

/-- Does the digest of `b` at nonce `n` start with `pfx`? -/
def satB (pfx : Str) (b : Block) (n : Int) : Bool :=
  pfx.isPrefixOf (withNonce b n).compute_hash

/-- Linkage plus index succession of a chain after its first block. -/
def linkedB : Block → List Block → Bool
  | _, [] => true
  | p, c :: rest => (c.previous_hash == p.hash && c.index == p.index + 1) && linkedB c rest

/-- Mutation of exactly the `index` field. -/
def MutIndex (b b2 : Block) : Prop :=
  b2.index ≠ b.index ∧ b2.timestamp = b.timestamp ∧ b2.data = b.data ∧
  b2.previous_hash = b.previous_hash ∧ b2.nonce = b.nonce ∧ b2.hash = b.hash

/-- Mutation of exactly the `timestamp` field. -/
def MutTimestamp (b b2 : Block) : Prop :=
  b2.index = b.index ∧ b2.timestamp ≠ b.timestamp ∧ b2.data = b.data ∧
  b2.previous_hash = b.previous_hash ∧ b2.nonce = b.nonce ∧ b2.hash = b.hash

/-- Mutation of exactly the `data` field. -/
def MutData (b b2 : Block) : Prop :=
  b2.index = b.index ∧ b2.timestamp = b.timestamp ∧ b2.data ≠ b.data ∧
  b2.previous_hash = b.previous_hash ∧ b2.nonce = b.nonce ∧ b2.hash = b.hash

/-- Mutation of exactly the `previous_hash` field. -/
def MutPrev (b b2 : Block) : Prop :=
  b2.index = b.index ∧ b2.timestamp = b.timestamp ∧ b2.data = b.data ∧
  b2.previous_hash ≠ b.previous_hash ∧ b2.nonce = b.nonce ∧ b2.hash = b.hash

/-- Mutation of exactly the `nonce` field. -/
def MutNonce (b b2 : Block) : Prop :=
  b2.index = b.index ∧ b2.timestamp = b.timestamp ∧ b2.data = b.data ∧
  b2.previous_hash = b.previous_hash ∧ b2.nonce ≠ b.nonce ∧ b2.hash = b.hash

/-- Mutation of exactly the `hash` field. -/
def MutHash (b b2 : Block) : Prop :=
  b2.index = b.index ∧ b2.timestamp = b.timestamp ∧ b2.data = b.data ∧
  b2.previous_hash = b.previous_hash ∧ b2.nonce = b.nonce ∧ b2.hash ≠ b.hash

/-- `b2` differs from `b` in exactly one of the six fields. -/
def SingleMut (b b2 : Block) : Prop :=
  MutIndex b b2 ∨ MutTimestamp b b2 ∨ MutData b b2 ∨
  MutPrev b b2 ∨ MutNonce b b2 ∨ MutHash b b2

/-- The mutated field is one of the four digest inputs other than `previous_hash`. -/
def ContentMut (b b2 : Block) : Prop :=
  b2.index ≠ b.index ∨ b2.timestamp ≠ b.timestamp ∨ b2.data ≠ b.data ∨ b2.nonce ≠ b.nonce

/-! ## Well-formed JSON values and sizes -/

/-- The keys of an object, in order. -/
def kvsKeys : JsonKVs → List Str
  | .nil => []
  | .cons k _ tl => k :: kvsKeys tl

/-- Strictly increasing key list (Python dict keys are distinct; `sort_keys`
puts them in increasing order). -/
def keysSortedB : List Str → Bool
  | [] => true
  | [_] => true
  | k1 :: k2 :: rest => strLtB k1 k2 && keysSortedB (k2 :: rest)

mutual
/-- Canonical values: every object has strictly key-sorted members. -/
def wfV : Json → Bool
  | .str _ => true
  | .num _ => true
  | .bool _ => true
  | .arr xs => wfL xs
  | .obj kvs => keysSortedB (kvsKeys kvs) && wfKV kvs
def wfL : JsonList → Bool
  | .nil => true
  | .cons v tl => wfV v && wfL tl
def wfKV : JsonKVs → Bool
  | .nil => true
  | .cons _ v tl => wfV v && wfKV tl
end

mutual
/-- Structural size, the fuel bound for the parser (strings contribute their
length, since string decoding is fuel-driven too). -/
def szV : Json → Nat
  | .str s => s.length + 2
  | .num _ => 1
  | .bool _ => 1
  | .arr xs => szL xs + 1
  | .obj kvs => szKV kvs + 1
def szL : JsonList → Nat
  | .nil => 1
  | .cons v tl => szV v + szL tl + 1
def szKV : JsonKVs → Nat
  | .nil => 1
  | .cons k v tl => k.length + szV v + szKV tl + 3
end

/-! ## A reference parser for the canonical encoding

Used only to prove that the encoding is injective (claim C6): parsing is a
left inverse of serialization, so two field tuples with equal encodings are
equal. -/

/-- Is `c` a decimal digit? -/
def digitB (c : Char) : Bool := 48 ≤ c.toNat && c.toNat ≤ 57

/-- Value of a decimal digit character. -/
def digitVal (c : Char) : Nat := c.toNat - 48

/-- Consume a maximal run of digits, accumulating the value. -/
def digitsLoop : Nat → Str → Nat × Str
  | acc, [] => (acc, [])
  | acc, c :: r => if digitB c then digitsLoop (acc * 10 + digitVal c) r else (acc, c :: r)

/-- Parse a non-empty digit run. -/
def parseDigits : Str → Option (Nat × Str)
  | [] => none
  | c :: r => if digitB c then some (digitsLoop 0 (c :: r)) else none

/-- Value of a lowercase hex digit character. -/
def hexVal (c : Char) : Option Nat :=
  if 48 ≤ c.toNat ∧ c.toNat ≤ 57 then some (c.toNat - 48)
  else if 97 ≤ c.toNat ∧ c.toNat ≤ 102 then some (c.toNat - 87)
  else none

/-- Prepend a decoded character to a string-parse result. -/
def consFst (c : Char) (o : Option (Str × Str)) : Option (Str × Str) :=
  o.map (fun p => (c :: p.1, p.2))

/-- Decoding of the two-character escapes of `escChar`. -/
def decodeEsc (e : Char) : Option Char :=
  if e = '"' then some '"'
  else if e = '\\' then some '\\'
  else if e = '/' then some '/'
  else if e = 'b' then some '\x08'
  else if e = 'f' then some '\x0c'
  else if e = 'n' then some '\n'
  else if e = 'r' then some '\r'
  else if e = 't' then some '\t'
  else none

/-- Parse four hex digits. -/
def parseHex4 : Str → Option (Nat × Str)
  | a1 :: a2 :: a3 :: a4 :: r =>
    match hexVal a1, hexVal a2, hexVal a3, hexVal a4 with
    | some x1, some x2, some x3, some x4 => some (((x1 * 16 + x2) * 16 + x3) * 16 + x4, r)
    | _, _, _, _ => none
  | _ => none

/-- Combine a decoded high surrogate with the parse of the low unit. -/
def parseUCombine (u : Nat) (o : Option (Nat × Str)) : Option (Char × Str) :=
  match o with
  | none => none
  | some (u2, r3) => some (Char.ofNat (65536 + (u - 55296) * 1024 + (u2 - 56320)), r3)

/-- Parse the `\uXXXX` low-surrogate continuation. -/
def parseULow (u : Nat) : Str → Option (Char × Str)
  | '\\' :: 'u' :: r2 => parseUCombine u (parseHex4 r2)
  | _ => none

/-- Interpret the first decoded `\uXXXX` unit. -/
def parseUafter (u : Nat) (r : Str) : Option (Char × Str) :=
  if 55296 ≤ u ∧ u < 56320 then parseULow u r
  else some (Char.ofNat u, r)

/-- Parse the payload of one `\uXXXX` escape (with a matching low-surrogate
continuation when the first unit is a high surrogate). -/
def parseU (s : Str) : Option (Char × Str) :=
  (parseHex4 s).bind (fun p => parseUafter p.1 p.2)

/-- Parse a string body after the opening quote, undoing `escChar`
(fuel-driven; fuel bounds the number of decoded characters). -/
def parseStr : Nat → Str → Option (Str × Str)
  | 0, _ => none
  | _ + 1, [] => none
  | f + 1, c :: r =>
    if c = '"' then some ([], r)
    else if c = '\\' then
      match r with
      | [] => none
      | 'u' :: r2 =>
        match parseU r2 with
        | none => none
        | some (dc, r3) => consFst dc (parseStr f r3)
      | e :: r2 =>
        match decodeEsc e with
        | none => none
        | some dc => consFst dc (parseStr f r2)
    else consFst c (parseStr f r)

/-- Parse the tail of the literal `true` (after the leading `t`). -/
def parseTrue : Str → Option (Json × Str)
  | 'r' :: 'u' :: 'e' :: r2 => some (.bool true, r2)
  | _ => none

/-- Parse the tail of the literal `false` (after the leading `f`). -/
def parseFalse : Str → Option (Json × Str)
  | 'a' :: 'l' :: 's' :: 'e' :: r2 => some (.bool false, r2)
  | _ => none

/-- Parse a negative number (after the leading `-`). -/
def parseNeg (r : Str) : Option (Json × Str) :=
  match parseDigits r with
  | some p => some (Json.num (-(p.1 : Int)), p.2)
  | none => none

/-- Parse a non-negative number. -/
def parseNum (s : Str) : Option (Json × Str) :=
  match parseDigits s with
  | some p => some (Json.num (p.1 : Int), p.2)
  | none => none

mutual
/-- Parse one JSON value (fuel-driven). -/
def parseVal : Nat → Str → Option (Json × Str)
  | 0, _ => none
  | _ + 1, [] => none
  | f + 1, c :: r =>
    if c = '"' then (parseStr f r).map (fun p => (Json.str p.1, p.2))
    else if c = 't' then parseTrue r
    else if c = 'f' then parseFalse r
    else if c = '[' then (parseItems f r).map (fun p => (Json.arr p.1, p.2))
    else if c = '\x7b' then (parseFields f r).map (fun p => (Json.obj p.1, p.2))
    else if c = '-' then parseNeg r
    else parseNum (c :: r)
/-- Parse array elements (entered right after `[`). -/
def parseItems : Nat → Str → Option (JsonList × Str)
  | 0, _ => none
  | f + 1, s =>
    match s with
    | ']' :: r => some (.nil, r)
    | _ =>
      match parseVal f s with
      | none => none
      | some (v, r1) =>
        match r1 with
        | ',' :: r2 =>
          match parseItems f r2 with
          | none => none
          | some (tl, r3) => some (.cons v tl, r3)
        | ']' :: r2 => some (.cons v .nil, r2)
        | _ => none
/-- Parse object members (entered right after the opening brace). -/
def parseFields : Nat → Str → Option (JsonKVs × Str)
  | 0, _ => none
  | f + 1, s =>
    match s with
    | '\x7d' :: r => some (.nil, r)
    | '"' :: r =>
      match parseStr f r with
      | none => none
      | some (k, r1) =>
        match r1 with
        | ':' :: r2 =>
          match parseVal f r2 with
          | none => none
          | some (v, r3) =>
            match r3 with
            | ',' :: r4 =>
              match parseFields f r4 with
              | none => none
              | some (tl, r5) => some (.cons k v tl, r5)
            | '\x7d' :: r4 => some (.cons k v .nil, r4)
            | _ => none
        | _ => none
    | _ => none
end

/-- "The next character (if any) is not a digit": the boundary condition under
which a serialized number is parsed back exactly. -/
def noDigitHead : Str → Prop
  | [] => True
  | c :: _ => digitB c = false

/-- The five hashed fields as a canonical (key-sorted) JSON object. -/
def blockSortedKVs (b : Block) : JsonKVs :=
  .cons (strOf "data") b.data
    (.cons (strOf "index") (.num b.index)
      (.cons (strOf "nonce") (.num b.nonce)
        (.cons (strOf "previous_hash") (.str b.previous_hash)
          (.cons (strOf "timestamp") (.num b.timestamp) .nil))))

/-- The canonical JSON value whose serialization is `blockString`. -/
def blockJson (b : Block) : Json := .obj (blockSortedKVs b)

/-- The last block of `p :: l`. -/
def lastD : Block → List Block → Block
  | p, [] => p
  | _, c :: rest => lastD c rest

/-! ## Concrete inputs used to instantiate the theorems -/

/-- A candidate block for mining at difficulty 1. -/
def bW1 : Block := ⟨1, 0, .str (strOf "a"), List.replicate 64 '0', 0, []⟩

/-- A ledger of difficulty 1. -/
def bcW1 : CentralBlockchain := initFresh 1 0

/-- A difficulty-0 ledger after one append. -/
def bcW3 : CentralBlockchain :=
  (appendAll 1 (initFresh 0 0) [(1, .str (strOf "a"))]).getD (initFresh 0 0)

/-- The appended block of `bcW3`. -/
def blkW3 : Block := bcW3.chain.getD 1 dBlock

/-- A difficulty-0 ledger after two appends. -/
def bcW4 : CentralBlockchain :=
  (appendAll 1 (initFresh 0 0) [(1, .str (strOf "a")), (2, .str (strOf "b"))]).getD
    (initFresh 0 0)

/-- A block that is not a well-formed genesis block. -/
def badBlock : Block := ⟨7, 0, .bool true, ['x'], 0, ['y']⟩

/-- Two blocks agreeing on the five hashed fields, differing in `hash`. -/
def bW5 : Block := ⟨2, 3, .str (strOf "pay"), strOf "ab", 4, strOf "h1"⟩

def bW5' : Block := ⟨2, 3, .str (strOf "pay"), strOf "ab", 4, strOf "h2"⟩

/-- Two blocks differing exactly in `index`. -/
def bW6 : Block := ⟨5, 0, .str (strOf "x"), [], 0, []⟩

def bW6' : Block := ⟨6, 0, .str (strOf "x"), [], 0, []⟩

/-- An arbitrary two-block ledger. -/
def bcW7 : CentralBlockchain := ⟨2, strOf "00", [badBlock, bW5]⟩

/-- An unsealed block with a nonzero starting nonce. -/
def bW9 : Block := ⟨1, 0, .str (strOf "n"), strOf "p", 5, []⟩

/-- The result of mining `bW9` at difficulty 0. -/
def bW9s : Block := (mineAux [] bW9 1).getD dBlock

set_option maxRecDepth 20000

/-! ## Basic lemmas about the digest -/

theorem hexDigit_mem (n : Nat) : hexDigit n ∈ hexTable := by
  have h : n % 16 < 16 := Nat.mod_lt _ (by norm_num)
  unfold hexDigit
  obtain ⟨m, hm⟩ : ∃ m, n % 16 = m := ⟨_, rfl⟩
  rw [hm] at h ⊢
  interval_cases m <;> decide

theorem wordHex_mem (w : Nat) : ∀ c ∈ wordHex w, c ∈ hexTable := by
  intro c hc
  simp only [wordHex, List.mem_cons, List.not_mem_nil, or_false] at hc
  rcases hc with rfl | rfl | rfl | rfl | rfl | rfl | rfl | rfl <;> exact hexDigit_mem _

theorem renderHash_length (st : Hs) : (renderHash st).length = 64 := by
  simp [renderHash, wordHex]

theorem renderHash_mem (st : Hs) : ∀ c ∈ renderHash st, c ∈ hexTable := by
  intro c hc
  simp only [renderHash, List.mem_append] at hc
  rcases hc with ((((((h | h) | h) | h) | h) | h) | h) | h <;> exact wordHex_mem _ _ h

theorem compute_hash_length (b : Block) : b.compute_hash.length = 64 := renderHash_length _

theorem compute_hash_mem (b : Block) : ∀ c ∈ b.compute_hash, c ∈ hexTable :=
  renderHash_mem _

theorem compute_hash_ne_nil (b : Block) : b.compute_hash ≠ [] := by
  intro h
  have h64 := compute_hash_length b
  rw [h] at h64
  simp at h64

/-- The `hash` field is not an input of `compute_hash`. -/
theorem compute_hash_set_hash (b : Block) (h : Str) :
    Block.compute_hash { b with hash := h } = b.compute_hash := rfl

/-- `compute_hash` is a function of exactly the five serialized fields. -/
theorem compute_hash_fields (b1 b2 : Block) (h1 : b1.index = b2.index)
    (h2 : b1.timestamp = b2.timestamp) (h3 : b1.data = b2.data)
    (h4 : b1.previous_hash = b2.previous_hash) (h5 : b1.nonce = b2.nonce) :
    b1.compute_hash = b2.compute_hash := by
  cases b1
  cases b2
  dsimp only at h1 h2 h3 h4 h5
  subst h1 h2 h3 h4 h5
  rfl

/-! ## Leading zeros and `startswith` -/

theorem isPrefixOf_replicate_zero (d : Nat) (s : Str) :
    List.isPrefixOf (List.replicate d '0') s = true ↔ d ≤ countZeros s := by
  induction d generalizing s with
  | zero => simp
  | succ d ih =>
    cases s with
    | nil => simp [List.replicate_succ, countZeros]
    | cons c r =>
      rw [List.replicate_succ]
      show (('0' == c) && List.isPrefixOf (List.replicate d '0') r) = true ↔ _
      by_cases hc : c = '0'
      · subst hc
        simp only [beq_self_eq_true, Bool.true_and, ih, countZeros, eq_self_iff_true, if_true]
        omega
      · have : ('0' == c) = false := by
          simp only [beq_eq_false_iff_ne, ne_eq]
          exact fun h => hc h.symm
        simp only [this, Bool.false_and, countZeros, if_neg hc]
        constructor
        · intro h; cases h
        · omega

/-! ## The mining loop -/

theorem withNonce_self (b : Block) : withNonce b b.nonce = b := rfl

theorem mineAux_sound (pfx : Str) (b : Block) (f : Nat) (b' : Block)
    (h : mineAux pfx b f = some b') :
    ∃ k : Nat,
      b' = { b with nonce := b.nonce + (k : Int),
                    hash := (withNonce b (b.nonce + (k : Int))).compute_hash } ∧
      satB pfx b (b.nonce + (k : Int)) = true ∧
      ∀ j : Nat, j < k → satB pfx b (b.nonce + (j : Int)) = false := by
  induction f generalizing b with
  | zero => simp [mineAux] at h
  | succ f ih =>
    rw [mineAux] at h
    by_cases hp : List.isPrefixOf pfx b.compute_hash = true
    · rw [if_pos hp] at h
      have hb : b' = { b with hash := b.compute_hash } := (Option.some.inj h).symm
      subst hb
      refine ⟨0, ?_, ?_, fun j hj => absurd hj (by omega)⟩
      · simp only [Nat.cast_zero, add_zero]
        rfl
      · simp only [Nat.cast_zero, add_zero]
        show List.isPrefixOf pfx (withNonce b b.nonce).compute_hash = true
        rw [withNonce_self]
        exact hp
    · rw [if_neg hp] at h
      obtain ⟨k', hb, hs, hmin⟩ := ih { b with nonce := b.nonce + 1 } h
      dsimp only [withNonce] at hb hs hmin
      refine ⟨k' + 1, ?_, ?_, ?_⟩
      · rw [hb]
        rw [show b.nonce + 1 + (k' : Int) = b.nonce + ((k' + 1 : Nat) : Int) by push_cast; ring]
        rfl
      · show List.isPrefixOf pfx (withNonce b (b.nonce + ((k' + 1 : Nat) : Int))).compute_hash = true
        dsimp only [withNonce]
        rw [show b.nonce + ((k' + 1 : Nat) : Int) = b.nonce + 1 + (k' : Int) by push_cast; ring]
        exact hs
      · intro j hj
        cases j with
        | zero =>
          simp only [Nat.cast_zero, add_zero]
          show List.isPrefixOf pfx (withNonce b b.nonce).compute_hash = false
          rw [withNonce_self]
          cases hx : List.isPrefixOf pfx b.compute_hash with
          | false => rfl
          | true => exact absurd hx hp
        | succ j' =>
          have hmj := hmin j' (by omega)
          show List.isPrefixOf pfx (withNonce b (b.nonce + ((j' + 1 : Nat) : Int))).compute_hash = false
          dsimp only [withNonce]
          rw [show b.nonce + ((j' + 1 : Nat) : Int) = b.nonce + 1 + (j' : Int) by push_cast; ring]
          exact hmj

theorem mineAux_complete (pfx : Str) (b : Block) (f k : Nat)
    (hk : k < f) (hsat : satB pfx b (b.nonce + (k : Int)) = true) :
    (mineAux pfx b f).isSome = true := by
  induction f generalizing b k with
  | zero => omega
  | succ f ih =>
    rw [mineAux]
    by_cases hp : List.isPrefixOf pfx b.compute_hash = true
    · rw [if_pos hp]
      rfl
    · rw [if_neg hp]
      cases k with
      | zero =>
        exfalso
        apply hp
        have h0 := hsat
        simp only [Nat.cast_zero, add_zero] at h0
        exact h0
      | succ k' =>
        apply ih { b with nonce := b.nonce + 1 } k' (by omega)
        have h0 := hsat
        rw [show b.nonce + ((k' + 1 : Nat) : Int) = b.nonce + 1 + (k' : Int) by push_cast; ring] at h0
        exact h0

/-! ## Chain validation helpers -/

theorem lastD_append (p : Block) (l : List Block) (b : Block) :
    lastD p (l ++ [b]) = b := by
  induction l generalizing p with
  | nil => rfl
  | cons c rest ih => exact ih c

theorem getLast?_cons_eq_lastD (g : Block) (rest : List Block) :
    (g :: rest).getLast? = some (lastD g rest) := by
  induction rest generalizing g with
  | nil => rfl
  | cons c rest ih => rw [List.getLast?_cons_cons]; exact ih c

theorem validFrom_append (pfx : Str) (p : Block) (l : List Block) (b : Block) :
    validFrom pfx p (l ++ [b]) = true ↔
      (validFrom pfx p l = true ∧ b.previous_hash = (lastD p l).hash ∧
       b.compute_hash = b.hash ∧ List.isPrefixOf pfx b.hash = true) := by
  induction l generalizing p with
  | nil =>
    simp only [List.nil_append, validFrom, Bool.and_true, Bool.and_eq_true, beq_iff_eq,
      lastD, and_assoc, eq_self_iff_true, true_and]
  | cons c rest ih =>
    simp only [List.cons_append, List.append_eq, validFrom, Bool.and_eq_true, beq_iff_eq,
      ih c, lastD, and_assoc]

theorem validFrom_iff (pfx : Str) (p : Block) (l : List Block) :
    validFrom pfx p l = true ↔
      ∀ i, i < l.length →
        ((l.getD i dBlock).previous_hash = ((p :: l).getD i dBlock).hash ∧
         (l.getD i dBlock).compute_hash = (l.getD i dBlock).hash ∧
         List.isPrefixOf pfx (l.getD i dBlock).hash = true) := by
  induction l generalizing p with
  | nil => simp [validFrom]
  | cons c rest ih =>
    simp only [validFrom, Bool.and_eq_true, beq_iff_eq, ih c]
    constructor
    · rintro ⟨⟨⟨h1, h2⟩, h3⟩, h4⟩ i hi
      cases i with
      | zero => simp [h1, h2, h3]
      | succ i =>
        have hstep := h4 i (by simpa using hi)
        simpa using hstep
    · intro h
      have h0 := h 0 (by simp)
      simp only [List.getD_cons_zero] at h0
      refine ⟨⟨⟨h0.1, h0.2.1⟩, h0.2.2⟩, ?_⟩
      intro i hi
      have hstep := h (i + 1) (by simpa using hi)
      simpa using hstep

theorem is_valid_cons (bc : CentralBlockchain) (g : Block) (rest : List Block)
    (hc : bc.chain = g :: rest) :
    bc.is_valid = ((g.hash == g.compute_hash) && validFrom bc.pfx g rest) := by
  unfold CentralBlockchain.is_valid
  rw [hc]

theorem is_valid_nil (bc : CentralBlockchain) (hc : bc.chain = []) : bc.is_valid = false := by
  unfold CentralBlockchain.is_valid
  rw [hc]

/-- The frame and success properties of a mined block, bundled. -/
theorem mineAux_fields (pfx : Str) (b : Block) (f : Nat) (b' : Block)
    (h : mineAux pfx b f = some b') :
    b'.index = b.index ∧ b'.timestamp = b.timestamp ∧ b'.data = b.data ∧
    b'.previous_hash = b.previous_hash ∧ b.nonce ≤ b'.nonce ∧
    b'.hash = b'.compute_hash ∧ List.isPrefixOf pfx b'.hash = true := by
  obtain ⟨k, hb, hs, -⟩ := mineAux_sound pfx b f b' h
  subst hb
  refine ⟨rfl, rfl, rfl, rfl, by dsimp only; omega, ?_, ?_⟩
  · exact compute_hash_fields _ _ rfl rfl rfl rfl rfl
  · exact hs

theorem setBlock_some (bc : CentralBlockchain) (ts : Int) (d : Json) (f : Nat)
    (bc' : CentralBlockchain) (blk : Block)
    (h : bc.setBlock ts d f = some (bc', blk)) :
    ∃ tip, bc.chain.getLast? = some tip ∧
      mineAux bc.pfx ⟨tip.index + 1, ts, d, tip.hash, 0, []⟩ f = some blk ∧
      bc' = { bc with chain := bc.chain ++ [blk] } := by
  unfold CentralBlockchain.setBlock at h
  split at h
  · exact absurd h (by simp)
  · rename_i tip hg
    split at h
    · exact absurd h (by simp)
    · rename_i mined hm
      simp only [Option.some.injEq, Prod.mk.injEq] at h
      obtain ⟨h1, h2⟩ := h
      subst h2
      exact ⟨tip, hg, hm, h1.symm⟩

/-! ## Construction and append invariants -/

theorem genesisBlock_hash (ts : Int) :
    (genesisBlock ts).hash = (genesisBlock ts).compute_hash := rfl

theorem initFresh_chain (d : Nat) (ts : Int) : (initFresh d ts).chain = [genesisBlock ts] := rfl

theorem initFresh_pfx (d : Nat) (ts : Int) : (initFresh d ts).pfx = List.replicate d '0' := rfl

theorem genesis_valid (d : Nat) (ts : Int) : (initFresh d ts).is_valid = true := by
  rw [is_valid_cons _ (genesisBlock ts) [] (initFresh_chain d ts)]
  rw [← genesisBlock_hash]
  simp [validFrom]

theorem setBlock_preserves_valid (bc : CentralBlockchain) (ts : Int) (d : Json) (f : Nat)
    (bc' : CentralBlockchain) (blk : Block) (hv : bc.is_valid = true)
    (h : bc.setBlock ts d f = some (bc', blk)) : bc'.is_valid = true := by
  obtain ⟨tip, hg, hm, hbc⟩ := setBlock_some bc ts d f bc' blk h
  cases hc : bc.chain with
  | nil => rw [is_valid_nil bc hc] at hv; cases hv
  | cons g rest =>
    obtain ⟨hidx, hts, hdat, hprev, hnon, hhash, hpref⟩ := mineAux_fields _ _ _ _ hm
    have htip : tip = lastD g rest := by
      rw [hc, getLast?_cons_eq_lastD] at hg
      exact (Option.some.inj hg).symm
    subst hbc
    have hc' : ({ bc with chain := bc.chain ++ [blk] } : CentralBlockchain).chain
        = g :: (rest ++ [blk]) := by
      dsimp only
      rw [hc]
      rfl
    rw [is_valid_cons _ _ _ hc']
    rw [is_valid_cons bc g rest hc] at hv
    simp only [Bool.and_eq_true] at hv ⊢
    refine ⟨hv.1, ?_⟩
    have hpfx' : ({ bc with chain := bc.chain ++ [blk] } : CentralBlockchain).pfx = bc.pfx := rfl
    rw [hpfx', validFrom_append]
    refine ⟨hv.2, ?_, hhash.symm, hpref⟩
    rw [hprev, ← htip]

theorem appendAll_valid (f : Nat) (ps : List (Int × Json)) (bc bc' : CentralBlockchain)
    (hv : bc.is_valid = true) (h : appendAll f bc ps = some bc') : bc'.is_valid = true := by
  induction ps generalizing bc with
  | nil =>
    simp only [appendAll, Option.some.injEq] at h
    rw [← h]
    exact hv
  | cons p rest ih =>
    obtain ⟨ts, d⟩ := p
    rw [appendAll] at h
    split at h
    · exact absurd h (by simp)
    · rename_i bc2 blk hs
      exact ih bc2 (setBlock_preserves_valid bc ts d f bc2 blk hv hs) h

theorem linkedB_append (p : Block) (l : List Block) (b : Block) :
    linkedB p (l ++ [b]) = true ↔
      (linkedB p l = true ∧ b.previous_hash = (lastD p l).hash ∧
       b.index = (lastD p l).index + 1) := by
  induction l generalizing p with
  | nil =>
    simp only [List.nil_append, linkedB, Bool.and_true, Bool.and_eq_true, beq_iff_eq,
      lastD, and_assoc, eq_self_iff_true, true_and]
  | cons c rest ih =>
    simp only [List.cons_append, List.append_eq, linkedB, Bool.and_eq_true, beq_iff_eq,
      ih c, lastD, and_assoc]

theorem linkedB_iff (p : Block) (l : List Block) :
    linkedB p l = true ↔
      ∀ i, i < l.length →
        ((l.getD i dBlock).previous_hash = ((p :: l).getD i dBlock).hash ∧
         (l.getD i dBlock).index = ((p :: l).getD i dBlock).index + 1) := by
  induction l generalizing p with
  | nil => simp [linkedB]
  | cons c rest ih =>
    simp only [linkedB, Bool.and_eq_true, beq_iff_eq, ih c]
    constructor
    · rintro ⟨⟨h1, h2⟩, h3⟩ i hi
      cases i with
      | zero => simp [h1, h2]
      | succ i =>
        have hstep := h3 i (by simpa using hi)
        simpa using hstep
    · intro h
      have h0 := h 0 (by simp)
      simp only [List.getD_cons_zero] at h0
      refine ⟨⟨h0.1, h0.2⟩, ?_⟩
      intro i hi
      have hstep := h (i + 1) (by simpa using hi)
      simpa using hstep

theorem setBlock_preserves_linked (bc : CentralBlockchain) (ts : Int) (d : Json) (f : Nat)
    (bc' : CentralBlockchain) (blk : Block) (g : Block) (rest : List Block)
    (hc : bc.chain = g :: rest) (hl : linkedB g rest = true)
    (h : bc.setBlock ts d f = some (bc', blk)) :
    bc'.chain = g :: (rest ++ [blk]) ∧ linkedB g (rest ++ [blk]) = true := by
  obtain ⟨tip, hg, hm, hbc⟩ := setBlock_some bc ts d f bc' blk h
  obtain ⟨hidx, hts, hdat, hprev, hnon, hhash, hpref⟩ := mineAux_fields _ _ _ _ hm
  have htip : tip = lastD g rest := by
    rw [hc, getLast?_cons_eq_lastD] at hg
    exact (Option.some.inj hg).symm
  subst hbc
  constructor
  · dsimp only
    rw [hc]
    rfl
  · rw [linkedB_append]
    refine ⟨hl, ?_, ?_⟩
    · rw [hprev, ← htip]
    · rw [hidx, ← htip]

theorem appendAll_linked (f : Nat) (ps : List (Int × Json)) (bc bc' : CentralBlockchain)
    (g : Block) (rest : List Block) (hc : bc.chain = g :: rest) (hl : linkedB g rest = true)
    (h : appendAll f bc ps = some bc') :
    ∃ rest', bc'.chain = g :: rest' ∧ linkedB g rest' = true := by
  induction ps generalizing bc rest with
  | nil =>
    simp only [appendAll, Option.some.injEq] at h
    exact ⟨rest, by rw [← h]; exact hc, hl⟩
  | cons p rest2 ih =>
    obtain ⟨ts, d⟩ := p
    rw [appendAll] at h
    split at h
    · exact absurd h (by simp)
    · rename_i bc2 blk hs
      obtain ⟨hc2, hl2⟩ := setBlock_preserves_linked bc ts d f bc2 blk g rest hc hl hs
      exact ih bc2 (rest ++ [blk]) hc2 hl2 h

/-! ## Claims -/

/-- C5: compute_hash is a pure deterministic function of exactly the fields
index, timestamp, data, previous_hash, nonce — two blocks agreeing on these
five fields produce the same digest regardless of the hash field — and the
result is a 64-character lowercase hex string (a 256-bit digest). -/
theorem claim_C5_compute_hash_deterministic_hex (b1 b2 : Block) :
    (b1.index = b2.index → b1.timestamp = b2.timestamp → b1.data = b2.data →
      b1.previous_hash = b2.previous_hash → b1.nonce = b2.nonce →
      b1.compute_hash = b2.compute_hash) ∧
    b1.compute_hash.length = 64 ∧
    (∀ c ∈ b1.compute_hash, c ∈ strOf "0123456789abcdef") :=
  ⟨fun h1 h2 h3 h4 h5 => compute_hash_fields b1 b2 h1 h2 h3 h4 h5,
   compute_hash_length b1, compute_hash_mem b1⟩

/-- Witness for C5: two concrete blocks agreeing on the five hashed fields but
with different hash fields have equal digests. -/
theorem claim_C5_witness :
    bW5.hash ≠ bW5'.hash ∧ bW5.compute_hash = bW5'.compute_hash :=
  ⟨by decide, (claim_C5_compute_hash_deterministic_hex bW5 bW5').1 rfl rfl rfl rfl rfl⟩

/-- C7: getBlock returns the block at the given array position when
0 ≤ index < length and None for every other integer index, including all
negative indices; it is a total function (no exception path). -/
theorem claim_C7_getBlock_total (bc : CentralBlockchain) (i : Int) :
    (0 ≤ i → i < (bc.chain.length : Int) →
      bc.getBlock i = some (bc.chain.getD i.toNat dBlock)) ∧
    ((i < 0 ∨ (bc.chain.length : Int) ≤ i) → bc.getBlock i = none) := by
  constructor
  · intro h0 hlen
    unfold CentralBlockchain.getBlock
    rw [if_pos ⟨h0, hlen⟩]
    have hlt : i.toNat < bc.chain.length := by omega
    simp only [List.get?_eq_getElem?, List.getD_eq_getElem?_getD,
      List.getElem?_eq_getElem hlt, Option.getD_some]
  · intro h
    unfold CentralBlockchain.getBlock
    rw [if_neg (fun hcon => by rcases h with h | h <;> omega)]

/-- Witness for C7: an in-range index and a negative index on a concrete ledger. -/
theorem claim_C7_witness :
    bcW7.getBlock 1 = some (bcW7.chain.getD 1 dBlock) ∧ bcW7.getBlock (-1) = none :=
  ⟨(claim_C7_getBlock_total bcW7 1).1 (by decide) (by decide),
   (claim_C7_getBlock_total bcW7 (-1)).2 (Or.inl (by decide))⟩

/-- C8: when the difficulty is 0, mining returns on the very first iteration
(fuel 1 suffices), with the candidate's starting nonce unchanged and the hash
set to the digest of the starting state. -/
theorem claim_C8_difficulty_zero (bc : CentralBlockchain) (b : Block) (f : Nat)
    (hd : bc.difficulty = 0) (hp : bc.pfx = List.replicate bc.difficulty '0') :
    bc.mineBlock b (f + 1) = some { b with hash := b.compute_hash } := by
  have hpfx : bc.pfx = [] := by rw [hp, hd]; rfl
  unfold CentralBlockchain.mineBlock
  rw [mineAux, hpfx, if_pos List.isPrefixOf_nil_left]

/-- Witness for C8 on a concrete difficulty-0 ledger and block. -/
theorem claim_C8_witness :
    (initFresh 0 7).mineBlock bW9 1 = some { bW9 with hash := bW9.compute_hash } :=
  claim_C8_difficulty_zero (initFresh 0 7) bW9 0 rfl rfl

/-- C9: mining seals the very block it is given and changes nothing else:
index, timestamp, data and previous_hash are those of the input; only the
nonce (not decreased) and the hash (set to the recomputed digest) differ. -/
theorem claim_C9_mine_frame (bc : CentralBlockchain) (b : Block) (f : Nat) (b' : Block)
    (h : bc.mineBlock b f = some b') :
    b'.index = b.index ∧ b'.timestamp = b.timestamp ∧ b'.data = b.data ∧
    b'.previous_hash = b.previous_hash ∧ b.nonce ≤ b'.nonce ∧
    b'.hash = b'.compute_hash := by
  obtain ⟨h1, h2, h3, h4, h5, h6, -⟩ := mineAux_fields bc.pfx b f b' h
  exact ⟨h1, h2, h3, h4, h5, h6⟩

/-- Witness for C9: a concrete difficulty-0 mine, with the frame facts from the
theorem. -/
theorem claim_C9_witness :
    (initFresh 0 3).mineBlock bW9 1 = some bW9s ∧
    bW9s.index = bW9.index ∧ bW9s.data = bW9.data ∧ bW9.nonce ≤ bW9s.nonce := by
  have hm : (initFresh 0 3).mineBlock bW9 1 = some bW9s := rfl
  obtain ⟨h1, h2, h3, h4, h5, h6⟩ := claim_C9_mine_frame (initFresh 0 3) bW9 1 bW9s hm
  exact ⟨hm, h1, h3, h5⟩

/-- C1: with the ledger prefix "0"*d, whenever some nonce within fuel reaches
the target, mineBlock returns a sealed block whose hash has at least d leading
'0' hex characters and equals the recomputed digest, and whose nonce is the
smallest nonce ≥ the candidate's starting nonce whose digest satisfies the
prefix (the loop explores nonces in strictly increasing order).  Fuel models
the unbounded Python loop. -/
theorem claim_C1_mineBlock_correct (bc : CentralBlockchain) (d : Nat) (b : Block) (fuel : Nat)
    (hp : bc.pfx = List.replicate d '0')
    (hex : ∃ k : Nat, k < fuel ∧ satB bc.pfx b (b.nonce + (k : Int)) = true) :
    ∃ b', bc.mineBlock b fuel = some b' ∧
      d ≤ countZeros b'.hash ∧
      b'.hash = b'.compute_hash ∧
      b.nonce ≤ b'.nonce ∧
      satB bc.pfx b b'.nonce = true ∧
      ∀ m : Int, b.nonce ≤ m → m < b'.nonce → satB bc.pfx b m = false := by
  obtain ⟨k, hk, hsat⟩ := hex
  have hsome := mineAux_complete bc.pfx b fuel k hk hsat
  obtain ⟨b', hb'⟩ := Option.isSome_iff_exists.mp hsome
  obtain ⟨k0, hbeq, hs0, hmin0⟩ := mineAux_sound bc.pfx b fuel b' hb'
  subst hbeq
  refine ⟨_, hb', ?_, ?_, ?_, ?_, ?_⟩
  · rw [hp] at hs0
    exact (isPrefixOf_replicate_zero d _).mp hs0
  · exact compute_hash_fields _ _ rfl rfl rfl rfl rfl
  · dsimp only
    omega
  · exact hs0
  · intro m hm1 hm2
    dsimp only at hm1 hm2
    obtain ⟨j, rfl, hjk⟩ : ∃ j : Nat, m = b.nonce + (j : Int) ∧ j < k0 :=
      ⟨(m - b.nonce).toNat, by omega, by omega⟩
    exact hmin0 j hjk

set_option maxRecDepth 10000 in
/-- Witness for C1: mining a concrete candidate at difficulty 1; nonce 21 is
the first satisfying nonce, found within fuel 30. -/
theorem claim_C1_witness :
    (∃ k : Nat, k < 30 ∧ satB bcW1.pfx bW1 (bW1.nonce + (k : Int)) = true) ∧
    ∃ b', bcW1.mineBlock bW1 30 = some b' ∧ 1 ≤ countZeros b'.hash ∧
      b'.hash = b'.compute_hash ∧ bW1.nonce ≤ b'.nonce ∧
      satB bcW1.pfx bW1 b'.nonce = true ∧
      ∀ m : Int, bW1.nonce ≤ m → m < b'.nonce → satB bcW1.pfx bW1 m = false := by
  have hex : ∃ k : Nat, k < 30 ∧ satB bcW1.pfx bW1 (bW1.nonce + (k : Int)) = true :=
    ⟨21, by omega, by decide⟩
  exact ⟨hex, claim_C1_mineBlock_correct bcW1 1 bW1 30 rfl hex⟩

/-- C2: is_valid is false on the empty chain; otherwise it is true iff the
genesis digest re-check passes and every block from index 1 on links to its
predecessor's hash, re-hashes to its stored hash, and has at least the
ledger's current difficulty leading '0' characters.  The genesis block is not
subject to the prefix check. -/
theorem claim_C2_is_valid_characterization (bc : CentralBlockchain)
    (hp : bc.pfx = List.replicate bc.difficulty '0') :
    bc.is_valid = true ↔
      (bc.chain ≠ [] ∧
       (bc.chain.getD 0 dBlock).hash = (bc.chain.getD 0 dBlock).compute_hash ∧
       ∀ i, 1 ≤ i → i < bc.chain.length →
         ((bc.chain.getD i dBlock).previous_hash = (bc.chain.getD (i - 1) dBlock).hash ∧
          (bc.chain.getD i dBlock).compute_hash = (bc.chain.getD i dBlock).hash ∧
          bc.difficulty ≤ countZeros (bc.chain.getD i dBlock).hash)) := by
  cases hc : bc.chain with
  | nil =>
    rw [is_valid_nil bc hc]
    simp
  | cons g rest =>
    rw [is_valid_cons bc g rest hc]
    simp only [Bool.and_eq_true, beq_iff_eq]
    constructor
    · rintro ⟨h0, h⟩
      rw [validFrom_iff] at h
      refine ⟨by simp, by simpa using h0, ?_⟩
      intro i h1 h2
      obtain ⟨j, rfl⟩ : ∃ j, i = j + 1 := ⟨i - 1, by omega⟩
      have hj := h j (by simp only [List.length_cons] at h2; omega)
      simp only [List.getD_cons_succ, Nat.add_sub_cancel]
      refine ⟨hj.1, hj.2.1, ?_⟩
      rw [hp] at hj
      exact (isPrefixOf_replicate_zero _ _).mp hj.2.2
    · rintro ⟨-, h0, h⟩
      refine ⟨by simpa using h0, ?_⟩
      rw [validFrom_iff]
      intro j hj
      have hi := h (j + 1) (by omega) (by simp only [List.length_cons]; omega)
      simp only [List.getD_cons_succ, Nat.add_sub_cancel] at hi
      refine ⟨hi.1, hi.2.1, ?_⟩
      rw [hp]
      exact (isPrefixOf_replicate_zero _ _).mpr hi.2.2

/-- Witness for C2: the characterization applied to a concrete valid ledger
(its prefix hypothesis holds by construction): the chain is non-empty and the
genesis digest re-check passes. -/
theorem claim_C2_witness :
    bcW1.is_valid = true ∧ bcW1.chain ≠ [] ∧
      (bcW1.chain.getD 0 dBlock).hash = (bcW1.chain.getD 0 dBlock).compute_hash := by
  have hv : bcW1.is_valid = true := by decide
  have h := (claim_C2_is_valid_characterization bcW1 rfl).mp hv
  exact ⟨hv, h.1, h.2.1⟩

theorem getD_set_self (l : List Block) (i : Nat) (v : Block) (h : i < l.length) :
    (l.set i v).getD i dBlock = v := by
  simp [List.getD_eq_getElem?_getD, List.getElem?_set_self (by simpa using h)]

theorem getD_set_ne (l : List Block) (i j : Nat) (v : Block) (hne : i ≠ j) :
    (l.set i v).getD j dBlock = l.getD j dBlock := by
  simp [List.getD_eq_getElem?_getD, List.getElem?_set_ne hne]

/-- C4: setBlock builds the candidate (index = tip.index + 1, the given data,
previous_hash = tip.hash, nonce 0, empty hash), mines it under the ledger's
current prefix, appends it at the tail and returns it; consequently, after any
number of sequential appends, every block links to its predecessor's hash and
increments the index by one. -/
theorem claim_C4_setBlock_append (ts : Int) (d : Json) (f : Nat) :
    (∀ bc bc' blk, CentralBlockchain.setBlock bc ts d f = some (bc', blk) →
      ∃ tip, bc.chain.getLast? = some tip ∧
        mineAux bc.pfx ⟨tip.index + 1, ts, d, tip.hash, 0, []⟩ f = some blk ∧
        blk.index = tip.index + 1 ∧ blk.previous_hash = tip.hash ∧ blk.data = d ∧
        bc'.chain = bc.chain ++ [blk]) ∧
    (∀ dif ts0 ps bc', appendAll f (initFresh dif ts0) ps = some bc' →
      ∀ i, 1 ≤ i → i < bc'.chain.length →
        (bc'.chain.getD i dBlock).previous_hash = (bc'.chain.getD (i - 1) dBlock).hash ∧
        (bc'.chain.getD i dBlock).index = (bc'.chain.getD (i - 1) dBlock).index + 1) := by
  constructor
  · intro bc bc' blk h
    obtain ⟨tip, hg, hm, hbc⟩ := setBlock_some bc ts d f bc' blk h
    obtain ⟨hidx, hts2, hdat, hprev, hnon, hhash, hpref⟩ := mineAux_fields _ _ _ _ hm
    exact ⟨tip, hg, hm, hidx, hprev, hdat, by rw [hbc]⟩
  · intro dif ts0 ps bc' h i h1 h2
    obtain ⟨rest', hc', hl'⟩ :=
      appendAll_linked f ps (initFresh dif ts0) bc' (genesisBlock ts0) []
        (initFresh_chain _ _) rfl h
    rw [linkedB_iff] at hl'
    rw [hc'] at h2 ⊢
    obtain ⟨j, rfl⟩ : ∃ j, i = j + 1 := ⟨i - 1, by omega⟩
    have hj := hl' j (by simp only [List.length_cons] at h2; omega)
    simp only [List.getD_cons_succ, Nat.add_sub_cancel]
    exact hj

set_option maxRecDepth 10000 in
/-- Witness for C4: one concrete setBlock and a concrete two-append build. -/
theorem claim_C4_witness :
    (∃ tip, (initFresh 0 0).chain.getLast? = some tip ∧
      mineAux (initFresh 0 0).pfx ⟨tip.index + 1, 1, Json.str (strOf "a"), tip.hash, 0, []⟩ 1
          = some blkW3 ∧
      blkW3.index = tip.index + 1 ∧ blkW3.previous_hash = tip.hash ∧
      blkW3.data = Json.str (strOf "a") ∧ bcW3.chain = (initFresh 0 0).chain ++ [blkW3]) ∧
    ((bcW4.chain.getD 2 dBlock).previous_hash = (bcW4.chain.getD 1 dBlock).hash ∧
     (bcW4.chain.getD 2 dBlock).index = (bcW4.chain.getD 1 dBlock).index + 1) :=
  ⟨(claim_C4_setBlock_append 1 (Json.str (strOf "a")) 1).1 (initFresh 0 0) bcW3 blkW3 rfl,
   (claim_C4_setBlock_append 1 (Json.str (strOf "a")) 1).2 0 0
     [(1, Json.str (strOf "a")), (2, Json.str (strOf "b"))] bcW4 rfl 2 (by omega) (by decide)⟩

/-- C3: a ledger freshly built from a genesis block by any number of successful
appends is valid; and replacing any single field of any non-genesis block of
such a chain with a different value makes is_valid false — for mutations of
the four content fields (index, timestamp, data, nonce) under the hypothesis
that the mutated digest differs (collision resistance of SHA-256, which is a
cryptographic assumption, instantiated concretely in the witness). -/
theorem claim_C3_fresh_valid_tamper_invalid :
    (∀ dif ts ps f bc', appendAll f (initFresh dif ts) ps = some bc' →
       bc'.is_valid = true) ∧
    (∀ dif ts ps f bc' i b2, appendAll f (initFresh dif ts) ps = some bc' →
       1 ≤ i → i < bc'.chain.length →
       SingleMut (bc'.chain.getD i dBlock) b2 →
       (ContentMut (bc'.chain.getD i dBlock) b2 →
         b2.compute_hash ≠ (bc'.chain.getD i dBlock).compute_hash) →
       ({ bc' with chain := bc'.chain.set i b2 } : CentralBlockchain).is_valid = false) := by
  constructor
  · intro dif ts ps f bc' h
    exact appendAll_valid f ps (initFresh dif ts) bc' (genesis_valid dif ts) h
  · intro dif ts ps f bc' i b2 h h1 h2 hmut hcoll
    have hv : bc'.is_valid = true :=
      appendAll_valid f ps (initFresh dif ts) bc' (genesis_valid dif ts) h
    cases hc : bc'.chain with
    | nil => rw [hc] at h2; simp at h2
    | cons g rest =>
      rw [hc] at h2 hmut hcoll
      obtain ⟨j, rfl⟩ : ∃ j, i = j + 1 := ⟨i - 1, by omega⟩
      have hjlen : j < rest.length := by simp only [List.length_cons] at h2; omega
      rw [is_valid_cons bc' g rest hc] at hv
      simp only [Bool.and_eq_true, beq_iff_eq] at hv
      obtain ⟨hg0, hvf⟩ := hv
      rw [validFrom_iff] at hvf
      obtain ⟨hF1, hF2, -⟩ := hvf j hjlen
      simp only [List.getD_cons_succ] at hmut hcoll
      have hcset : ({ bc' with chain := (g :: rest).set (j + 1) b2 } : CentralBlockchain).chain
          = g :: rest.set j b2 := by
        dsimp only
        rw [List.set_cons_succ]
      cases hval : ({ bc' with chain := (g :: rest).set (j + 1) b2 } : CentralBlockchain).is_valid with
      | false => rfl
      | true =>
        exfalso
        rw [is_valid_cons _ g (rest.set j b2) hcset] at hval
        simp only [Bool.and_eq_true, beq_iff_eq] at hval
        obtain ⟨-, hvf2⟩ := hval
        rw [validFrom_iff] at hvf2
        have hts2 := hvf2 j (by simpa using hjlen)
        rw [getD_set_self rest j b2 hjlen] at hts2
        have hpred : ((g :: rest.set j b2).getD j dBlock) = ((g :: rest).getD j dBlock) := by
          cases j with
          | zero => simp
          | succ j' =>
            simp only [List.getD_cons_succ]
            exact getD_set_ne rest (j' + 1) j' b2 (by omega)
        rw [hpred] at hts2
        rcases hmut with hm | hm | hm | hm | hm | hm
        · exact hcoll (Or.inl hm.1)
            (by rw [hts2.2.1, hm.2.2.2.2.2, ← hF2])
        · exact hcoll (Or.inr (Or.inl hm.2.1))
            (by rw [hts2.2.1, hm.2.2.2.2.2, ← hF2])
        · exact hcoll (Or.inr (Or.inr (Or.inl hm.2.2.1)))
            (by rw [hts2.2.1, hm.2.2.2.2.2, ← hF2])
        · exact hm.2.2.2.1 (hts2.1.trans hF1.symm)
        · exact hcoll (Or.inr (Or.inr (Or.inr hm.2.2.2.2.1)))
            (by rw [hts2.2.1, hm.2.2.2.2.2, ← hF2])
        · have hcc : b2.compute_hash = (rest.getD j dBlock).compute_hash :=
            compute_hash_fields _ _ hm.1 hm.2.1 hm.2.2.1 hm.2.2.2.1 hm.2.2.2.2.1
          exact hm.2.2.2.2.2 ((hts2.2.1.symm.trans hcc).trans hF2)

set_option maxRecDepth 10000 in
/-- Witness for C3: a concrete difficulty-0 build of genesis plus one append is
valid, and blanking the appended block's hash field invalidates it. -/
theorem claim_C3_witness :
    bcW3.is_valid = true ∧
    ({ bcW3 with chain := bcW3.chain.set 1 { blkW3 with hash := [] } } :
        CentralBlockchain).is_valid = false := by
  have hb : appendAll 1 (initFresh 0 0) [(1, Json.str (strOf "a"))] = some bcW3 := rfl
  have hmut : SingleMut (bcW3.chain.getD 1 dBlock) { blkW3 with hash := [] } :=
    Or.inr (Or.inr (Or.inr (Or.inr (Or.inr ⟨rfl, rfl, rfl, rfl, rfl, by decide⟩))))
  refine ⟨claim_C3_fresh_valid_tamper_invalid.1 0 0 _ 1 bcW3 hb, ?_⟩
  refine claim_C3_fresh_valid_tamper_invalid.2 0 0 _ 1 bcW3 1 _ hb (by omega) (by decide)
    hmut ?_
  intro hcon
  exact (by rcases hcon with hx | hx | hx | hx <;> exact absurd rfl hx : False).elim

/-- Counterexample to C10 as stated: construction from a persisted (loaded)
chain keeps that chain as-is, so the block at position 0 need not be a genesis
block; loading the single block `badBlock` (whose previous_hash is "x")
exhibits a constructed ledger whose first block has no 64-zero previous_hash. -/
theorem claim_C10_counterexample :
    ((initLoad 3 [badBlock] 0).chain.getD 0 dBlock).previous_hash
      ≠ List.replicate 64 '0' := by decide

/-- C10 (amended): after construction the chain is never empty; when no
persisted chain is loaded, the chain is exactly one genesis block with index
0, 64 zero characters as previous_hash and a sealed (digest-valued, non-empty)
hash; the read operations return their results with the state unchanged; and a
successful setBlock extends the chain by exactly the one mined block at the
tail. -/
theorem claim_C10_amended :
    (∀ dif loaded ts, (initLoad dif loaded ts).chain ≠ []) ∧
    (∀ dif ts, (initFresh dif ts).chain = [genesisBlock ts] ∧
      (genesisBlock ts).index = 0 ∧
      (genesisBlock ts).previous_hash = List.replicate 64 '0' ∧
      (genesisBlock ts).hash = (genesisBlock ts).compute_hash ∧
      (genesisBlock ts).hash ≠ []) ∧
    (∀ (bc : CentralBlockchain) (i : Int), bc.getBlockM i = (bc.getBlock i, bc)) ∧
    (∀ bc : CentralBlockchain, bc.blocksExplorerM = (bc.blocksExplorer, bc)) ∧
    (∀ bc : CentralBlockchain, bc.is_validM = (bc.is_valid, bc)) ∧
    (∀ bc ts d f bc' blk, CentralBlockchain.setBlock bc ts d f = some (bc', blk) →
      bc'.chain = bc.chain ++ [blk] ∧ bc'.chain.length = bc.chain.length + 1) := by
  refine ⟨?_, ?_, fun bc i => rfl, fun bc => rfl, fun bc => rfl, ?_⟩
  · intro dif loaded ts
    unfold initLoad
    cases loaded with
    | nil => simp
    | cons b l => simp
  · intro dif ts
    refine ⟨rfl, rfl, rfl, genesisBlock_hash ts, ?_⟩
    rw [genesisBlock_hash]
    exact compute_hash_ne_nil _
  · intro bc ts d f bc' blk h
    obtain ⟨tip, hg, hm, hbc⟩ := setBlock_some bc ts d f bc' blk h
    subst hbc
    exact ⟨rfl, by simp⟩

set_option maxRecDepth 10000 in
/-- Witness for the amended C10: a loaded ledger is non-empty, and one concrete
setBlock grows the chain by exactly the mined block. -/
theorem claim_C10_witness :
    (initLoad 3 [badBlock] 0).chain ≠ [] ∧
    (bcW3.chain = (initFresh 0 0).chain ++ [blkW3] ∧
     bcW3.chain.length = (initFresh 0 0).chain.length + 1) :=
  ⟨claim_C10_amended.1 3 [badBlock] 0,
   claim_C10_amended.2.2.2.2.2 (initFresh 0 0) 1 (Json.str (strOf "a")) 1 bcW3 blkW3 rfl⟩

/-! ## Injectivity of the canonical encoding (claim C6)

The serializer is inverted by the reference parser; the lemmas below establish
`parse (encode v ++ rest) = some (v, rest)` for canonical values, from which
the encoding is injective. -/

theorem toNat_charOfNat (n : Nat) (h : Nat.isValidChar n) : (Char.ofNat n).toNat = n := by
  rw [Char.ofNat, dif_pos h]
  rfl

theorem digitCh_toNat (d : Nat) (hd : d < 10) : (digitCh d).toNat = 48 + d :=
  toNat_charOfNat _ (Or.inl (by omega))

theorem digitB_digitCh (d : Nat) (hd : d < 10) : digitB (digitCh d) = true := by
  simp only [digitB, digitCh_toNat d hd, Bool.and_eq_true, decide_eq_true_eq]
  omega

theorem digitVal_digitCh (d : Nat) (hd : d < 10) : digitVal (digitCh d) = d := by
  simp only [digitVal, digitCh_toNat d hd]
  omega

theorem natDigitsAux_digits (f n : Nat) : ∀ c ∈ natDigitsAux f n, digitB c = true := by
  induction f generalizing n with
  | zero => intro c hc; simp [natDigitsAux] at hc
  | succ f ih =>
    intro c hc
    rw [natDigitsAux] at hc
    by_cases h0 : n = 0
    · rw [if_pos h0] at hc; simp at hc
    · rw [if_neg h0] at hc
      rcases List.mem_append.mp hc with h | h
      · exact ih (n / 10) c h
      · simp only [List.mem_singleton] at h
        subst h
        exact digitB_digitCh _ (Nat.mod_lt _ (by norm_num))

theorem natDigitsAux_ne_nil (f n : Nat) (h0 : n ≠ 0) : natDigitsAux (f + 1) n ≠ [] := by
  rw [natDigitsAux, if_neg h0]
  simp

theorem digitsLoop_stop (acc : Nat) (s : Str) (h : noDigitHead s) :
    digitsLoop acc s = (acc, s) := by
  cases s with
  | nil => rfl
  | cons c r =>
    rw [digitsLoop, if_neg]
    rw [noDigitHead] at h
    simp [h]

theorem digitsLoop_digits (D : List Char) (hD : ∀ c ∈ D, digitB c = true) :
    ∀ acc rest, digitsLoop acc (D ++ rest) =
      digitsLoop (D.foldl (fun a c => a * 10 + digitVal c) acc) rest := by
  induction D with
  | nil => intro acc rest; rfl
  | cons c D' ih =>
    intro acc rest
    rw [List.cons_append, digitsLoop, if_pos (hD c (by simp))]
    rw [ih (fun x hx => hD x (by simp [hx])) (acc * 10 + digitVal c) rest]
    rfl

theorem natDigitsAux_val (f : Nat) : ∀ n acc, n < 10 ^ f →
    (natDigitsAux f n).foldl (fun a c => a * 10 + digitVal c) acc =
      acc * 10 ^ (natDigitsAux f n).length + n := by
  induction f with
  | zero =>
    intro n acc hn
    have h0 : n = 0 := by simpa using hn
    subst h0
    simp [natDigitsAux]
  | succ f ih =>
    intro n acc hn
    by_cases h0 : n = 0
    · subst h0
      simp [natDigitsAux]
    · rw [natDigitsAux, if_neg h0]
      rw [List.foldl_append]
      have hdiv : n / 10 < 10 ^ f := by
        have : n < 10 ^ (f + 1) := hn
        rw [pow_succ] at this
        omega
      rw [ih (n / 10) acc hdiv]
      simp only [List.foldl_cons, List.foldl_nil, List.length_append, List.length_cons,
        List.length_nil, pow_succ]
      rw [digitVal_digitCh _ (Nat.mod_lt _ (by norm_num))]
      have hX : acc * (10 ^ (natDigitsAux f (n / 10)).length * 10)
          = acc * 10 ^ (natDigitsAux f (n / 10)).length * 10 := by ring
      omega

theorem parseDigits_natRepr (n : Nat) (rest : Str) (h : noDigitHead rest) :
    parseDigits (natRepr n ++ rest) = some (n, rest) := by
  by_cases h0 : n = 0
  · subst h0
    rw [natRepr, if_pos rfl]
    rw [show (['0'] : Str) ++ rest = '0' :: rest from rfl]
    rw [parseDigits, if_pos (by decide)]
    rw [show ('0' :: rest : Str) = ['0'] ++ rest from rfl]
    rw [digitsLoop_digits ['0'] (by decide) 0 rest]
    rw [digitsLoop_stop _ _ h]
    rfl
  · rw [natRepr, if_neg h0]
    obtain ⟨c, D', hD⟩ := List.exists_cons_of_ne_nil (natDigitsAux_ne_nil n n h0)
    have hdig := natDigitsAux_digits (n + 1) n
    rw [hD] at hdig ⊢
    rw [List.cons_append, parseDigits, if_pos (hdig c (by simp))]
    rw [show (c :: (D' ++ rest) : Str) = (c :: D') ++ rest from rfl]
    rw [digitsLoop_digits (c :: D') hdig 0 rest]
    rw [digitsLoop_stop _ _ h]
    have hval := natDigitsAux_val (n + 1) n 0 (Nat.lt_pow_self (by norm_num) n |>.trans
      (Nat.pow_lt_pow_succ (by norm_num)))
    rw [hD] at hval
    simp only [Nat.zero_mul, Nat.zero_add] at hval
    rw [hval]

theorem hexVal_hexDigit (n : Nat) : hexVal (hexDigit n) = some (n % 16) := by
  have h : n % 16 < 16 := Nat.mod_lt _ (by norm_num)
  unfold hexDigit
  obtain ⟨m, hm⟩ : ∃ m, n % 16 = m := ⟨_, rfl⟩
  rw [hm] at h ⊢
  interval_cases m <;> decide

theorem char_valid_nat (c : Char) :
    c.toNat < 55296 ∨ (57343 < c.toNat ∧ c.toNat < 1114112) := c.valid


theorem parseHex4_hex (m : Nat) (h16 : m < 65536) (X : Str) :
    parseHex4 (hex4 m ++ X) = some (m, X) := by
  rw [show (hex4 m ++ X : Str) = hexDigit (m / 4096) :: hexDigit (m / 256)
      :: hexDigit (m / 16) :: hexDigit m :: X by simp [hex4]]
  rw [parseHex4]
  simp [hexVal_hexDigit]
  omega

theorem parseU_bmp (m : Nat) (h16 : m < 65536) (hns : ¬(55296 ≤ m ∧ m < 56320)) (X : Str) :
    parseU (hex4 m ++ X) = some (Char.ofNat m, X) := by
  unfold parseU
  rw [parseHex4_hex m h16 X, Option.some_bind]
  show parseUafter m X = some (Char.ofNat m, X)
  unfold parseUafter
  rw [if_neg hns]

theorem parseULow_cons (u : Nat) (r2 : Str) :
    parseULow u ('\\' :: 'u' :: r2) = parseUCombine u (parseHex4 r2) := rfl

theorem parseUCombine_some (u u2 : Nat) (r3 : Str) :
    parseUCombine u (some (u2, r3))
    = some (Char.ofNat (65536 + (u - 55296) * 1024 + (u2 - 56320)), r3) := rfl

theorem parseU_astral (m : Nat) (hm1 : 65536 ≤ m) (hm2 : m < 1114112) (X : Str) :
    parseU (hex4 (55296 + (m - 65536) / 1024) ++
      ('\\' :: 'u' :: (hex4 (56320 + (m - 65536) % 1024) ++ X))) = some (Char.ofNat m, X) := by
  have hx1 := parseHex4_hex (55296 + (m - 65536) / 1024) (by omega)
      ('\\' :: 'u' :: (hex4 (56320 + (m - 65536) % 1024) ++ X))
  have hx2 := parseHex4_hex (56320 + (m - 65536) % 1024) (by omega) X
  have hc1 : 55296 ≤ 55296 + (m - 65536) / 1024 := by omega
  have hc2 : 55296 + (m - 65536) / 1024 < 56320 := by omega
  unfold parseU
  rw [hx1, Option.some_bind]
  show parseUafter (55296 + (m - 65536) / 1024)
      ('\\' :: 'u' :: (hex4 (56320 + (m - 65536) % 1024) ++ X)) = some (Char.ofNat m, X)
  unfold parseUafter
  rw [if_pos ⟨hc1, hc2⟩, parseULow_cons, hx2, parseUCombine_some]
  rw [show 65536 + (55296 + (m - 65536) / 1024 - 55296) * 1024 +
      (56320 + (m - 65536) % 1024 - 56320) = m by omega]

theorem parseStr_escape (s : Str) :
    ∀ f rest, s.length < f → parseStr f (escStr s ++ '"' :: rest) = some (s, rest) := by
  induction s with
  | nil =>
    intro f rest hf
    obtain ⟨f', rfl⟩ : ∃ f', f = f' + 1 := ⟨f - 1, by omega⟩
    rw [show escStr [] ++ '"' :: rest = '"' :: rest from rfl]
    rw [parseStr.eq_def]
    simp
  | cons c s' ih =>
    intro f rest hf
    obtain ⟨f', rfl⟩ : ∃ f', f = f' + 1 := ⟨f - 1, by omega⟩
    have hlen : s'.length < f' := by
      simp only [List.length_cons] at hf
      omega
    rw [show escStr (c :: s') ++ '"' :: rest = escChar c ++ (escStr s' ++ '"' :: rest) by
      rw [escStr, List.append_assoc]]
    unfold escChar
    by_cases h1 : c = '"'
    · rw [if_pos h1]
      subst h1
      rw [parseStr.eq_def]
      simp [decodeEsc, ih f' rest hlen, consFst]
    rw [if_neg h1]
    by_cases h2 : c = '\\'
    · rw [if_pos h2]
      subst h2
      rw [parseStr.eq_def]
      simp [decodeEsc, ih f' rest hlen, consFst]
    rw [if_neg h2]
    by_cases h3 : c = '\x08'
    · rw [if_pos h3]
      subst h3
      rw [parseStr.eq_def]
      simp [decodeEsc, ih f' rest hlen, consFst]
    rw [if_neg h3]
    by_cases h4 : c = '\x0c'
    · rw [if_pos h4]
      subst h4
      rw [parseStr.eq_def]
      simp [decodeEsc, ih f' rest hlen, consFst]
    rw [if_neg h4]
    by_cases h5 : c = '\n'
    · rw [if_pos h5]
      subst h5
      rw [parseStr.eq_def]
      simp [decodeEsc, ih f' rest hlen, consFst]
    rw [if_neg h5]
    by_cases h6 : c = '\r'
    · rw [if_pos h6]
      subst h6
      rw [parseStr.eq_def]
      simp [decodeEsc, ih f' rest hlen, consFst]
    rw [if_neg h6]
    by_cases h7 : c = '\t'
    · rw [if_pos h7]
      subst h7
      rw [parseStr.eq_def]
      simp [decodeEsc, ih f' rest hlen, consFst]
    rw [if_neg h7]
    by_cases h8 : c.toNat < 32 ∨ 126 < c.toNat
    · rw [if_pos h8]
      by_cases h9 : c.toNat < 65536
      · rw [if_pos h9]
        have hns : ¬(55296 ≤ c.toNat ∧ c.toNat < 56320) := by
          rcases char_valid_nat c with hv | hv <;> omega
        rw [parseStr.eq_def]
        simp [parseU_bmp c.toNat h9 hns, ih f' rest hlen, Char.ofNat_toNat, consFst]
      · rw [if_neg h9]
        dsimp only
        have h2' : c.toNat < 1114112 := by
          rcases char_valid_nat c with hv | hv <;> omega
        rw [parseStr.eq_def]
        simp [List.append_assoc, parseU_astral c.toNat (by omega) h2', ih f' rest hlen,
          Char.ofNat_toNat, consFst]
    · rw [if_neg h8]
      rw [show ([c] : Str) ++ (escStr s' ++ '"' :: rest) = c :: (escStr s' ++ '"' :: rest)
        from rfl]
      rw [parseStr.eq_def]
      simp [h1, h2, ih f' rest hlen, consFst]

theorem natRepr_ne_nil (n : Nat) : natRepr n ≠ [] := by
  rw [natRepr]
  by_cases h0 : n = 0
  · rw [if_pos h0]; simp
  · rw [if_neg h0]; exact natDigitsAux_ne_nil n n h0

theorem natRepr_digits (n : Nat) : ∀ c ∈ natRepr n, digitB c = true := by
  rw [natRepr]
  by_cases h0 : n = 0
  · rw [if_pos h0]
    intro c hc
    simp only [List.mem_singleton] at hc
    subst hc
    decide
  · rw [if_neg h0]
    exact natDigitsAux_digits (n + 1) n

theorem digitB_not_special (c : Char) (h : digitB c = true) :
    ¬c = '"' ∧ ¬c = 't' ∧ ¬c = 'f' ∧ ¬c = '[' ∧ ¬c = '\x7b' ∧ ¬c = '-' := by
  refine ⟨?_, ?_, ?_, ?_, ?_, ?_⟩ <;> (intro h1; subst h1; exact absurd h (by decide))

theorem intRepr_head (n : Int) :
    ∃ c t, intRepr n = c :: t ∧ (c = '-' ∨ digitB c = true) := by
  cases n with
  | ofNat m =>
    obtain ⟨c, t, h⟩ := List.exists_cons_of_ne_nil (natRepr_ne_nil m)
    refine ⟨c, t, ?_, Or.inr (natRepr_digits m c (by rw [h]; simp))⟩
    rw [intRepr, h]
  | negSucc m => exact ⟨'-', natRepr (m + 1), rfl, Or.inl rfl⟩

theorem encV_head (v : Json) : ∃ c t, encV v = c :: t ∧
    (c = '"' ∨ c = 't' ∨ c = 'f' ∨ c = '[' ∨ c = '\x7b' ∨ c = '-' ∨ digitB c = true) := by
  cases v with
  | str s => exact ⟨'"', escStr s ++ ['"'], by rw [encV]; simp, Or.inl rfl⟩
  | num n =>
    obtain ⟨c, t, h, hd⟩ := intRepr_head n
    refine ⟨c, t, by rw [encV, h], ?_⟩
    rcases hd with h' | h'
    · exact Or.inr (Or.inr (Or.inr (Or.inr (Or.inr (Or.inl h')))))
    · exact Or.inr (Or.inr (Or.inr (Or.inr (Or.inr (Or.inr h')))))
  | bool b =>
    cases b with
    | true => exact ⟨'t', ['r', 'u', 'e'], by rw [encV]; rfl, Or.inr (Or.inl rfl)⟩
    | false => exact ⟨'f', ['a', 'l', 's', 'e'], by rw [encV]; rfl, Or.inr (Or.inr (Or.inl rfl))⟩
  | arr xs =>
    exact ⟨'[', joinComma (encL xs) ++ [']'], by rw [encV]; simp,
      Or.inr (Or.inr (Or.inr (Or.inl rfl)))⟩
  | obj kvs =>
    exact ⟨'\x7b', joinComma ((sortPairs (encKV kvs)).map (fun p => p.2)) ++ ['\x7d'],
      by rw [encV]; simp, Or.inr (Or.inr (Or.inr (Or.inr (Or.inl rfl))))⟩

theorem encV_head_ne (v : Json) : ∃ c t, encV v = c :: t ∧
    ¬c = ']' ∧ ¬c = '\x7d' ∧ ¬c = ',' := by
  obtain ⟨c, t, he, hd⟩ := encV_head v
  refine ⟨c, t, he, ?_, ?_, ?_⟩ <;>
    (rcases hd with h | h | h | h | h | h | h <;>
      first
        | (subst h; decide)
        | (intro h1; subst h1; exact absurd h (by decide)))

theorem strLtB_asymm : ∀ a b : Str, strLtB a b = true → strLtB b a = false := by
  intro a
  induction a with
  | nil =>
    intro b h
    cases b with
    | nil => exact absurd h (by decide)
    | cons y ys => rfl
  | cons x xs ih =>
    intro b h
    cases b with
    | nil => exact absurd h (by rw [strLtB]; simp)
    | cons y ys =>
      rw [strLtB] at h ⊢
      by_cases h1 : x.toNat < y.toNat
      · rw [if_neg (by omega), if_pos h1]
      · rw [if_neg h1] at h
        by_cases h2 : y.toNat < x.toNat
        · rw [if_pos h2] at h
          exact absurd h (by simp)
        · rw [if_neg h2] at h
          rw [if_neg h1, if_neg h2]
          exact ih ys h

theorem keysSortedB_tail (k : Str) (ks : List Str) (h : keysSortedB (k :: ks) = true) :
    keysSortedB ks = true := by
  cases ks with
  | nil => rfl
  | cons k2 rest =>
    rw [keysSortedB, Bool.and_eq_true] at h
    exact h.2

theorem keysSortedB_head (k1 k2 : Str) (ks : List Str)
    (h : keysSortedB (k1 :: k2 :: ks) = true) : strLtB k1 k2 = true := by
  rw [keysSortedB, Bool.and_eq_true] at h
  exact h.1

theorem szV_pos (v : Json) : 1 ≤ szV v := by
  cases v <;> rw [szV] <;> omega

theorem szL_pos (xs : JsonList) : 1 ≤ szL xs := by
  cases xs <;> rw [szL] <;> omega

theorem szKV_pos (kvs : JsonKVs) : 1 ≤ szKV kvs := by
  cases kvs <;> rw [szKV] <;> omega

theorem encKV_keys_fuel : ∀ n kvs, szKV kvs ≤ n → (encKV kvs).map Prod.fst = kvsKeys kvs := by
  intro n
  induction n with
  | zero => intro kvs h; exact absurd h (by have := szKV_pos kvs; omega)
  | succ n ih =>
    intro kvs h
    cases kvs with
    | nil => rfl
    | cons k v tl =>
      rw [szKV] at h
      rw [encKV, kvsKeys, List.map_cons, ih tl (by omega)]

theorem encKV_keys (kvs : JsonKVs) : (encKV kvs).map Prod.fst = kvsKeys kvs :=
  encKV_keys_fuel (szKV kvs) kvs le_rfl

theorem insertP_head_lt (p : Str × Str) : ∀ l : List (Str × Str),
    (∀ q, l.head? = some q → strLtB p.1 q.1 = true) → insertP p l = p :: l := by
  intro l h
  cases l with
  | nil => rfl
  | cons q rest =>
    have hlt := h q rfl
    have hle : strLeB p.1 q.1 = true := by
      rw [strLeB, strLtB_asymm _ _ hlt]
      rfl
    rw [insertP, if_pos hle]

theorem sortPairs_id : ∀ l : List (Str × Str),
    keysSortedB (l.map Prod.fst) = true → sortPairs l = l := by
  intro l
  induction l with
  | nil => intro h; rfl
  | cons p rest ih =>
    intro h
    rw [List.map_cons] at h
    rw [sortPairs, ih (keysSortedB_tail _ _ h)]
    apply insertP_head_lt
    intro q hq
    cases rest with
    | nil => simp at hq
    | cons q0 rest2 =>
      simp only [List.head?_cons, Option.some.injEq] at hq
      subst hq
      rw [List.map_cons] at h
      exact keysSortedB_head _ _ _ h

theorem sortPairs_encKV (kvs : JsonKVs) (h : keysSortedB (kvsKeys kvs) = true) :
    sortPairs (encKV kvs) = encKV kvs := by
  apply sortPairs_id
  rw [encKV_keys]
  exact h

theorem joinComma_two (s r0 : Str) (rest : List Str) :
    joinComma (s :: r0 :: rest) = s ++ ',' :: joinComma (r0 :: rest) := rfl

theorem utf8Char_length_pos (c : Char) : 0 < (utf8Char c).length := by
  simp only [utf8Char]
  split <;> (try split) <;> (try split) <;> simp

theorem char_toNat_lt (c : Char) : c.toNat < 1114112 := by
  rcases char_valid_nat c with h | h <;> omega

theorem char_eq_of_toNat_eq (c1 c2 : Char) (h : c1.toNat = c2.toNat) : c1 = c2 := by
  have h1 := Char.ofNat_toNat c1
  have h2 := Char.ofNat_toNat c2
  rw [← h1, ← h2, h]

theorem utf8Char_append_inj (c1 c2 : Char) (A B : List Nat)
    (h : utf8Char c1 ++ A = utf8Char c2 ++ B) : c1 = c2 ∧ A = B := by
  have hv1 := char_toNat_lt c1
  have hv2 := char_toNat_lt c2
  simp only [utf8Char] at h
  by_cases a1 : c1.toNat < 128 <;> by_cases a2 : c1.toNat < 2048 <;>
    by_cases a3 : c1.toNat < 65536 <;> by_cases b1 : c2.toNat < 128 <;>
    by_cases b2 : c2.toNat < 2048 <;> by_cases b3 : c2.toNat < 65536 <;>
    simp only [a1, a2, a3, b1, b2, b3, if_true, if_false, ite_true, ite_false,
      List.cons_append, List.nil_append, List.cons.injEq] at h <;>
    first
      | omega
      | (obtain ⟨h1, h2⟩ := h
         first
           | omega
           | exact ⟨char_eq_of_toNat_eq c1 c2 (by omega), h2⟩)
      | (obtain ⟨h1, h2, h3⟩ := h
         first
           | omega
           | exact ⟨char_eq_of_toNat_eq c1 c2 (by omega), h3⟩)
      | (obtain ⟨h1, h2, h3, h4⟩ := h
         first
           | omega
           | exact ⟨char_eq_of_toNat_eq c1 c2 (by omega), h4⟩)
      | (obtain ⟨h1, h2, h3, h4, h5⟩ := h
         exact ⟨char_eq_of_toNat_eq c1 c2 (by omega), h5⟩)

theorem utf8Bytes_inj : ∀ s1 s2 : Str, utf8Bytes s1 = utf8Bytes s2 → s1 = s2 := by
  intro s1
  induction s1 with
  | nil =>
    intro s2 h
    cases s2 with
    | nil => rfl
    | cons c2 t2 =>
      exfalso
      have hl := congrArg List.length h
      simp only [utf8Bytes, List.length_append, List.length_nil] at hl
      have := utf8Char_length_pos c2
      omega
  | cons c t ih =>
    intro s2 h
    cases s2 with
    | nil =>
      exfalso
      have hl := congrArg List.length h
      simp only [utf8Bytes, List.length_append, List.length_nil] at hl
      have := utf8Char_length_pos c
      omega
    | cons c2 t2 =>
      rw [utf8Bytes, utf8Bytes] at h
      obtain ⟨hc, ht⟩ := utf8Char_append_inj c c2 _ _ h
      rw [hc, ih t2 ht]

theorem noDigitHead_cons (c : Char) (r : Str) (h : digitB c = false) :
    noDigitHead (c :: r) := h

set_option maxHeartbeats 1000000 in
theorem parse_enc : ∀ f : Nat,
    (∀ v rest, szV v ≤ f → wfV v = true → noDigitHead rest →
      parseVal f (encV v ++ rest) = some (v, rest)) ∧
    (∀ xs rest, szL xs ≤ f → wfL xs = true →
      parseItems f (joinComma (encL xs) ++ ']' :: rest) = some (xs, rest)) ∧
    (∀ kvs rest, szKV kvs ≤ f → wfKV kvs = true →
      parseFields f (joinComma ((encKV kvs).map (fun p => p.2)) ++ '\x7d' :: rest)
        = some (kvs, rest)) := by
  intro f
  induction f with
  | zero =>
    refine ⟨?_, ?_, ?_⟩
    · intro v rest hsz _ _
      exact absurd hsz (by have := szV_pos v; omega)
    · intro xs rest hsz _
      exact absurd hsz (by have := szL_pos xs; omega)
    · intro kvs rest hsz _
      exact absurd hsz (by have := szKV_pos kvs; omega)
  | succ f ih =>
    obtain ⟨ihV, ihL, ihF⟩ := ih
    refine ⟨?_, ?_, ?_⟩
    · intro v rest hsz hwf hnd
      cases v with
      | str s =>
        rw [szV] at hsz
        rw [show encV (.str s) ++ rest = '"' :: (escStr s ++ '"' :: rest) by
          rw [encV]; simp]
        rw [parseVal]
        simp [parseStr_escape s f rest (by omega)]
      | num n =>
        cases n with
        | ofNat m =>
          obtain ⟨c, D, hcd⟩ := List.exists_cons_of_ne_nil (natRepr_ne_nil m)
          have hdig : digitB c = true := natRepr_digits m c (by rw [hcd]; simp)
          obtain ⟨q1, q2, q3, q4, q5, q6⟩ := digitB_not_special c hdig
          have hpd : parseDigits (c :: (D ++ rest)) = some (m, rest) := by
            rw [show c :: (D ++ rest) = natRepr m ++ rest by rw [hcd]; simp]
            exact parseDigits_natRepr m rest hnd
          rw [show encV (.num (Int.ofNat m)) ++ rest = c :: (D ++ rest) by
            rw [encV, intRepr, hcd]; simp]
          rw [parseVal]
          simp [q1, q2, q3, q4, q5, q6, parseNum, hpd]
        | negSucc m =>
          have hpd : parseDigits (natRepr (m + 1) ++ rest) = some (m + 1, rest) :=
            parseDigits_natRepr (m + 1) rest hnd
          rw [show encV (.num (Int.negSucc m)) ++ rest = '-' :: (natRepr (m + 1) ++ rest) by
            rw [encV, intRepr]; simp]
          rw [parseVal]
          simp [parseNeg, hpd, Int.negSucc_eq]
      | bool b =>
        cases b with
        | true =>
          rw [show encV (.bool true) ++ rest = 't' :: 'r' :: 'u' :: 'e' :: rest by
            rw [encV]; rfl]
          rw [parseVal]
          simp [parseTrue]
        | false =>
          rw [show encV (.bool false) ++ rest = 'f' :: 'a' :: 'l' :: 's' :: 'e' :: rest by
            rw [encV]; rfl]
          rw [parseVal]
          simp [parseFalse]
      | arr xs =>
        rw [szV] at hsz
        rw [wfV] at hwf
        rw [show encV (.arr xs) ++ rest = '[' :: (joinComma (encL xs) ++ ']' :: rest) by
          rw [encV]; simp]
        rw [parseVal]
        simp [ihL xs rest (by omega) hwf]
      | obj kvs =>
        rw [szV] at hsz
        rw [wfV, Bool.and_eq_true] at hwf
        rw [show encV (.obj kvs) ++ rest
            = '\x7b' :: (joinComma ((encKV kvs).map (fun p => p.2)) ++ '\x7d' :: rest) by
          rw [encV, sortPairs_encKV kvs hwf.1]; simp]
        rw [parseVal]
        simp [ihF kvs rest (by omega) hwf.2]
    · intro xs rest hsz hwf
      cases xs with
      | nil =>
        rw [show joinComma (encL .nil) ++ ']' :: rest = ']' :: rest by rw [encL]; rfl]
        rw [parseItems]
      | cons v tl =>
        rw [szL] at hsz
        rw [wfL, Bool.and_eq_true] at hwf
        obtain ⟨c, t, hct, hne1, hne2, hne3⟩ := encV_head_ne v
        cases tl with
        | nil =>
          rw [show joinComma (encL (.cons v .nil)) ++ ']' :: rest = encV v ++ ']' :: rest by
            rw [encL, encL]; rfl]
          have hv := ihV v (']' :: rest) (by have := szL_pos JsonList.nil; omega) hwf.1
            (noDigitHead_cons ']' rest (by decide))
          rw [parseItems, hv]
          · simp
          · intro r heq
            rw [hct, List.cons_append, List.cons.injEq] at heq
            exact hne1 heq.1
        | cons v2 tl2 =>
          rw [show joinComma (encL (.cons v (.cons v2 tl2))) ++ ']' :: rest
              = encV v ++ ',' :: (joinComma (encL (.cons v2 tl2)) ++ ']' :: rest) by
            simp [encL, joinComma_two]]
          have hv := ihV v (',' :: (joinComma (encL (.cons v2 tl2)) ++ ']' :: rest))
            (by have := szL_pos tl2; have := szV_pos v2; rw [szL] at hsz; omega) hwf.1
            (noDigitHead_cons ',' _ (by decide))
          have hl := ihL (.cons v2 tl2) rest (by have := szV_pos v; omega) hwf.2
          rw [parseItems, hv]
          · simp [hl]
          · intro r heq
            rw [hct, List.cons_append, List.cons.injEq] at heq
            exact hne1 heq.1
    · intro kvs rest hsz hwf
      cases kvs with
      | nil =>
        rw [show joinComma ((encKV .nil).map (fun p => p.2)) ++ '\x7d' :: rest
            = '\x7d' :: rest by rw [encKV]; rfl]
        rw [parseFields]
      | cons k v tl =>
        rw [szKV] at hsz
        rw [wfKV, Bool.and_eq_true] at hwf
        have hszv := szV_pos v
        have hszt := szKV_pos tl
        have hk : k.length < f := by omega
        cases tl with
        | nil =>
          rw [show joinComma ((encKV (.cons k v .nil)).map (fun p => p.2)) ++ '\x7d' :: rest
              = '"' :: (escStr k ++ '"' :: (':' :: (encV v ++ '\x7d' :: rest))) by
            simp [encKV, joinComma]]
          have hv := ihV v ('\x7d' :: rest) (by omega) hwf.1
            (noDigitHead_cons '\x7d' rest (by decide))
          rw [parseFields]
          simp [parseStr_escape k f (':' :: (encV v ++ '\x7d' :: rest)) hk, hv]
        | cons k2 v2 tl2 =>
          rw [show joinComma ((encKV (.cons k v (.cons k2 v2 tl2))).map (fun p => p.2))
                ++ '\x7d' :: rest
              = '"' :: (escStr k ++ '"' :: (':' :: (encV v ++ ',' ::
                  (joinComma ((encKV (.cons k2 v2 tl2)).map (fun p => p.2))
                    ++ '\x7d' :: rest)))) by
            simp [encKV, joinComma_two]]
          have hv := ihV v (',' ::
              (joinComma ((encKV (.cons k2 v2 tl2)).map (fun p => p.2)) ++ '\x7d' :: rest))
            (by omega) hwf.1 (noDigitHead_cons ',' _ (by decide))
          have hf2 := ihF (.cons k2 v2 tl2) rest (by omega) hwf.2
          rw [parseFields]
          simp [parseStr_escape k f (':' :: (encV v ++ ',' ::
              (joinComma ((encKV (.cons k2 v2 tl2)).map (fun p => p.2)) ++ '\x7d' :: rest)))
            hk, hv, hf2]

theorem encV_inj (v1 v2 : Json) (h1 : wfV v1 = true) (h2 : wfV v2 = true)
    (he : encV v1 = encV v2) : v1 = v2 := by
  have p1 := (parse_enc (szV v1 + szV v2)).1 v1 [] (by omega) h1 trivial
  have p2 := (parse_enc (szV v1 + szV v2)).1 v2 [] (by omega) h2 trivial
  rw [he] at p1
  rw [p2] at p1
  simp only [Option.some.injEq, Prod.mk.injEq] at p1
  exact p1.1.symm

theorem blockString_eq (b : Block) : blockString b = encV (blockJson b) := rfl

theorem keysSortedB_blockKeys (b : Block) :
    keysSortedB (kvsKeys (blockSortedKVs b)) = true := by
  rw [show kvsKeys (blockSortedKVs b) =
      [strOf "data", strOf "index", strOf "nonce", strOf "previous_hash", strOf "timestamp"]
    from rfl]
  decide

theorem wfV_blockJson (b : Block) (h : wfV b.data = true) : wfV (blockJson b) = true := by
  rw [blockJson, wfV, Bool.and_eq_true]
  refine ⟨keysSortedB_blockKeys b, ?_⟩
  simp [blockSortedKVs, wfKV, wfV, h]

/-- C6: the canonical encoding used as the hash input (compact JSON with sorted
mapping keys) is injective over well-formed field tuples: two blocks whose
`data` payloads are canonical JSON values and that differ in `index`,
`timestamp`, `data`, `previous_hash` or `nonce` have distinct encoded byte
strings. -/
theorem claim_C6_encoding_injective (b1 b2 : Block)
    (h1 : wfV b1.data = true) (h2 : wfV b2.data = true)
    (hne : b1.index ≠ b2.index ∨ b1.timestamp ≠ b2.timestamp ∨ b1.data ≠ b2.data ∨
      b1.previous_hash ≠ b2.previous_hash ∨ b1.nonce ≠ b2.nonce) :
    utf8Bytes (blockString b1) ≠ utf8Bytes (blockString b2) := by
  intro he
  have hs : blockString b1 = blockString b2 := utf8Bytes_inj _ _ he
  rw [blockString_eq, blockString_eq] at hs
  have hj := encV_inj _ _ (wfV_blockJson b1 h1) (wfV_blockJson b2 h2) hs
  rw [blockJson, blockJson] at hj
  injection hj with hkv
  rw [blockSortedKVs, blockSortedKVs] at hkv
  simp only [JsonKVs.cons.injEq, Json.num.injEq, Json.str.injEq, and_true, true_and,
    eq_self_iff_true] at hkv
  obtain ⟨hd, hi, hn, hp, ht⟩ := hkv
  rcases hne with h | h | h | h | h
  · exact h hi
  · exact h ht
  · exact h hd
  · exact h hp
  · exact h hn

/-- Witness for C6: two concrete blocks differing exactly in `index` get
distinct canonical encodings. -/
theorem claim_C6_witness :
    wfV bW6.data = true ∧ wfV bW6'.data = true ∧ bW6.index ≠ bW6'.index ∧
      utf8Bytes (blockString bW6) ≠ utf8Bytes (blockString bW6') :=
  ⟨rfl, rfl, by decide,
    claim_C6_encoding_injective bW6 bW6' rfl rfl (Or.inl (by decide))⟩
